import Mathlib

/-!
Shallow embedding of the OasisNvr storage core (src/src/storage/chunk_pool.rs,
src/src/storage/index.rs, src/src/storage/global_writer.rs).

Files are modelled as lists of bytes (Nat values; the code never branches on a
byte being < 256, so byte-ness is not imposed).  Timestamps (`DateTime<Utc>`)
are modelled as `Int` unix seconds; chrono serialises `timestamp()` as an i64
and every `DateTime<Utc>` timestamp is far inside the i64 range, so the
little-endian two's-complement encoding below is exact on all values the code
can produce.  File I/O never fails in the model (the claims under study are not
about I/O errors), so `ChunkPool::append`'s only failure is the oversized-
segment rejection, modelled as an `Option` in the first component while the
second component is the (unchanged) pool state.
-/

set_option maxRecDepth 100000

namespace OasisNvr

/-- Read `n` bytes of `file` starting at byte offset `off`
(models seek + read). -/
def readAt (file : List Nat) (off n : Nat) : List Nat :=
  (file.drop off).take n

/-- Overwrite `file` at byte offset `off` with `bs`
(models seek + write_all on a pre-allocated file). -/
def writeAt (file : List Nat) (off : Nat) (bs : List Nat) : List Nat :=
  file.take off ++ bs ++ file.drop (off + bs.length)

/-- Little-endian u32 encoding (byteorder `write_u32::<LittleEndian>`);
the value is truncated mod 2^32 exactly as Rust's `as u32` cast does. -/
def u32le (n : Nat) : List Nat :=
  [n % 256, n / 256 % 256, n / 65536 % 256, n / 16777216 % 256]

/-- Little-endian u64 encoding (byteorder `write_u64::<LittleEndian>`). -/
def u64le (n : Nat) : List Nat :=
  [n % 256, n / 256 % 256, n / 65536 % 256, n / 16777216 % 256,
   n / 4294967296 % 256, n / 1099511627776 % 256,
   n / 281474976710656 % 256, n / 72057594037927936 % 256]

/-- Little-endian i64 encoding: two's complement of the integer mod 2^64. -/
def i64le (z : Int) : List Nat :=
  u64le (z.emod 18446744073709551616).toNat

/-- Decode a little-endian u32 (`read_u32::<LittleEndian>`). -/
def readU32 (bs : List Nat) : Nat :=
  bs.getD 0 0 + 256 * bs.getD 1 0 + 65536 * bs.getD 2 0 + 16777216 * bs.getD 3 0

/-- Decode a little-endian u64 (`read_u64::<LittleEndian>`). -/
def readU64 (bs : List Nat) : Nat :=
  bs.getD 0 0 + 256 * bs.getD 1 0 + 65536 * bs.getD 2 0 + 16777216 * bs.getD 3 0
    + 4294967296 * bs.getD 4 0 + 1099511627776 * bs.getD 5 0
    + 281474976710656 * bs.getD 6 0 + 72057594037927936 * bs.getD 7 0

/-- Decode a little-endian i64 (two's complement). -/
def readI64 (bs : List Nat) : Int :=
  let n := readU64 bs
  if n < 9223372036854775808 then (n : Int) else (n : Int) - 18446744073709551616

/-- `b"NVRPOOL0"` -/
def POOL_MAGIC : List Nat := [78, 86, 82, 80, 79, 79, 76, 48]

/-- `b"NREC"` -/
def RECORD_MAGIC : List Nat := [78, 82, 69, 67]

/-- camera_id field: 16 bytes, zero padded, truncated if longer
(`cam_bytes[..src.len().min(16)].copy_from_slice(..)`). -/
def encodeCam (cam : List Nat) : List Nat :=
  cam.take 16 ++ List.replicate (16 - cam.length) 0

/-- `trim_end_matches('\0')` applied to the 16 recovered camera-id bytes. -/
def trimTrailingZeros (bs : List Nat) : List Nat :=
  (bs.reverse.dropWhile (fun b => b == 0)).reverse

/-- The 40-byte record header: `NREC`, 16-byte camera id, start_ts, end_ts,
data_len — exactly the header writes in `ChunkPool::append`. -/
def recordHeaderBytes (cam : List Nat) (s e : Int) (dl : Nat) : List Nat :=
  RECORD_MAGIC ++ (encodeCam cam ++ (i64le s ++ (i64le e ++ u32le dl)))

/-- The full on-disk record: header followed by the payload. -/
def recordBytes (cam : List Nat) (s e : Int) (data : List Nat) : List Nat :=
  recordHeaderBytes cam s e data.length ++ data

/-- The 64-byte pool header written by `write_pool_header`. -/
def poolHeaderBytes (pool_id : Nat) (created_at : Int) : List Nat :=
  POOL_MAGIC ++ u64le pool_id ++ i64le created_at ++ List.replicate 40 0

/-- `SegmentLocation` (chunk_pool.rs). -/
structure SegmentLocation where
  pool_idx : Nat
  pool_id : Nat
  record_offset : Nat
  record_size : Nat
deriving Repr, DecidableEq

/-- `ScannedRecord` (chunk_pool.rs); camera id as recovered bytes, timestamps
as unix seconds. -/
structure ScannedRecord where
  camera_id : List Nat
  start_ts : Int
  end_ts : Int
  pool_idx : Nat
  pool_id : Nat
  record_offset : Nat
  record_size : Nat
deriving Repr, DecidableEq

/-- `PoolSlot` (chunk_pool.rs), with the slot's file contents in place of its
path. -/
structure PoolSlot where
  pool_id : Nat
  bytes_used : Nat
  file : List Nat
deriving Repr, DecidableEq

instance : Inhabited PoolSlot := ⟨⟨0, 0, []⟩⟩

/-- `ChunkPool` (chunk_pool.rs).  The read-guard counters are not part of the
sequential storage state. -/
structure ChunkPool where
  pool_capacity : Nat
  slots : List PoolSlot
  write_idx : Nat
deriving Repr, DecidableEq

/-- Re-write a slot's 64-byte pool header (`ChunkPool::write_pool_header`). -/
def writePoolHeader (p : ChunkPool) (i : Nat) (now : Int) : ChunkPool :=
  let s := p.slots.getD i default
  { p with slots :=
      p.slots.set i ⟨s.pool_id, s.bytes_used, writeAt s.file 0 (poolHeaderBytes s.pool_id now)⟩ }

/-- `ChunkPool::open` on a base path with no existing pool files: each slot is
pre-allocated zero-filled with `pool_id = i`, the write index is 0, and a fresh
pool header is written at slot 0. -/
def openFresh (capacity maxPools : Nat) (now : Int) : ChunkPool :=
  let slots := (List.range maxPools).map
    (fun i => (⟨i, 0, List.replicate (64 + capacity) 0⟩ : PoolSlot))
  writePoolHeader ⟨capacity, slots, 0⟩ 0 now

/-- `ChunkPool::rotate`: advance the write index around the ring, add
`max_pools` to the target slot's pool_id, zero its `bytes_used` and rewrite its
header.  (The reader-wait loop is timing behaviour with no effect on the
storage state.) -/
def rotate (p : ChunkPool) (now : Int) : ChunkPool :=
  let n := p.slots.length
  let idx := (p.write_idx + 1) % n
  let s := p.slots.getD idx default
  let pid := s.pool_id + n
  { p with
    write_idx := idx,
    slots := p.slots.set idx ⟨pid, 0, writeAt s.file 0 (poolHeaderBytes pid now)⟩ }

/-- `ChunkPool::append`.  `none` in the first component is the oversized-
segment error; the second component is the pool state after the call (on the
error path the state is returned unchanged, matching the early `return Err`). -/
def append (p : ChunkPool) (cam : List Nat) (s e : Int) (data : List Nat)
    (now : Int) : Option SegmentLocation × ChunkPool :=
  let record_size := 40 + data.length
  if record_size > p.pool_capacity then (none, p)
  else
    let p1 := if (p.slots.getD p.write_idx default).bytes_used + record_size > p.pool_capacity
      then rotate p now else p
    let slot := p1.slots.getD p1.write_idx default
    let off := 64 + slot.bytes_used
    let file2 := writeAt slot.file off (recordBytes cam s e data)
    (some ⟨p1.write_idx, slot.pool_id, off, record_size⟩,
     { p1 with slots := p1.slots.set p1.write_idx ⟨slot.pool_id, slot.bytes_used + record_size, file2⟩ })

/-- `ChunkPool::status`: `(write_idx, bytes_used, pool_capacity)`. -/
def status (p : ChunkPool) : Nat × Nat × Nat :=
  (p.write_idx, (p.slots.getD p.write_idx default).bytes_used, p.pool_capacity)

/-- `ChunkPool::read_segment_data`: seek to `record_offset + 40`, read
`record_size - 40` payload bytes. -/
def read_segment_data (p : ChunkPool) (loc : SegmentLocation) : List Nat :=
  readAt (p.slots.getD loc.pool_idx default).file (loc.record_offset + 40) (loc.record_size - 40)

/-- `ChunkPool::read_pool_header`: returns `(pool_id, created_at)`, or `(0, 0)`
when the 8-byte magic does not match (fresh or corrupt header). -/
def read_pool_header (file : List Nat) : Nat × Int :=
  if readAt file 0 8 = POOL_MAGIC then
    (readU64 (readAt file 8 8), readI64 (readAt file 16 8))
  else (0, 0)

/-- The scanning loop of `ChunkPool::scan_records`.  The fuel argument only
bounds the recursion; every call below supplies fuel at least `limit - offset`,
which is at least the number of iterations (each record consumes at least 40 of
the at most `limit - offset` remaining bytes). -/
def scanLoop (fuel : Nat) (file : List Nat) (pool_idx pool_id limit offset : Nat) :
    List ScannedRecord :=
  match fuel with
  | 0 => []
  | Nat.succ fuel =>
    if offset + 40 ≤ limit then
      if readAt file offset 4 = RECORD_MAGIC then
        let cam := trimTrailingZeros (readAt file (offset + 4) 16)
        let s := readI64 (readAt file (offset + 20) 8)
        let e := readI64 (readAt file (offset + 28) 8)
        let dl := readU32 (readAt file (offset + 36) 4)
        let rs := 40 + dl
        if offset + rs > limit then []
        else ⟨cam, s, e, pool_idx, pool_id, offset, rs⟩
          :: scanLoop fuel file pool_idx pool_id limit (offset + rs)
      else []
    else []

/-- `ChunkPool::scan_records`: scan one pool file's body starting right after
the 64-byte pool header, stopping at the first non-`NREC` magic or at a record
whose declared length overflows the pool body. -/
def scan_records (file : List Nat) (pool_idx pool_id capacity : Nat) :
    List ScannedRecord :=
  scanLoop (64 + capacity) file pool_idx pool_id (64 + capacity) 64

/-- The sort key test of `scan_all_pools`'s `sort_by_key(|r| (pool_id,
record_offset))`. -/
def recLe (a b : ScannedRecord) : Bool :=
  a.pool_id < b.pool_id || (a.pool_id == b.pool_id && a.record_offset ≤ b.record_offset)

def insortRec (a : ScannedRecord) : List ScannedRecord → List ScannedRecord
  | [] => [a]
  | b :: bs => if recLe a b then a :: b :: bs else b :: insortRec a bs

/-- Stable sort by `(pool_id, record_offset)` (insertion sort; `recLe` is a
total transitive test, so this computes the same list as Rust's stable
`sort_by_key`). -/
def sortRecords : List ScannedRecord → List ScannedRecord
  | [] => []
  | a :: as => insortRec a (sortRecords as)

/-- `ChunkPool::scan_all_pools`: concatenate each slot's scan, then sort by
`(pool_id, record_offset)`. -/
def scan_all_pools (p : ChunkPool) : List ScannedRecord :=
  sortRecords ((p.slots.enum.map
    (fun x => scan_records x.2.file x.1 x.2.pool_id p.pool_capacity)).flatten)

/-- One slot of `ChunkPool::open` over an existing base path: a missing file is
created zero-filled with `pool_id = i`; an existing file's header is read (bad
magic adopts `pool_id = 0`) and its records are scanned to recover
`bytes_used`. -/
def openSlot (capacity i : Nat) (f : Option (List Nat)) : PoolSlot :=
  match f with
  | none => ⟨i, 0, List.replicate (64 + capacity) 0⟩
  | some file =>
    let pid := (read_pool_header file).1
    let recs := scan_records file i pid capacity
    ⟨pid, (recs.map (fun r => r.record_size)).sum, file⟩

/-- The `best_idx`/`best_pool_id` fold of `ChunkPool::open`: an existing slot
updates the best pair whenever its pool_id is `>=` the best so far. -/
def bestAux : Nat → List (Option (List Nat)) → Nat × Nat → Nat × Nat
  | _, [], acc => acc
  | i, none :: fs, acc => bestAux (i + 1) fs acc
  | i, some f :: fs, acc =>
    let pid := (read_pool_header f).1
    bestAux (i + 1) fs (if pid ≥ acc.2 then (i, pid) else acc)

/-- `ChunkPool::open` over a directory state: `files.getD i none` is the
contents of `pool_i.bin` (`none` = file absent).  The write index resumes at
the best slot when any file existed; otherwise at 0 with a fresh header. -/
def openPool (capacity : Nat) (files : List (Option (List Nat))) (now : Int) :
    ChunkPool :=
  let slots := files.enum.map (fun x => openSlot capacity x.1 x.2)
  let anyE := files.any Option.isSome
  let widx := if anyE then (bestAux 0 files (0, 0)).1 else 0
  let p : ChunkPool := ⟨capacity, slots, widx⟩
  if anyE then p else writePoolHeader p 0 now

/-- The directory state left behind by a pool handle (used to model drop +
re-open: every slot's file exists on disk). -/
def filesOf (p : ChunkPool) : List (Option (List Nat)) :=
  p.slots.map (fun s => some s.file)

-- ───────────────────────────── segment index ─────────────────────────────

/-- `SegmentMeta` (index.rs). -/
structure SegmentMeta where
  segment_id : Nat
  camera_id : List Nat
  start_ts : Int
  end_ts : Int
  location : SegmentLocation
deriving Repr, DecidableEq

/-- The `IndexKey` of an entry: `(camera_id, start_ts, segment_id)`.  In
`SegmentIndex::insert` the key fields are copies of the meta fields, so the key
is recovered from the stored value. -/
def mkey (m : SegmentMeta) : List Nat × Int × Nat :=
  (m.camera_id, m.start_ts, m.segment_id)

/-- Byte-wise lexicographic strict order on camera ids — Rust's `Ord` for
`String`. -/
def bytesLt : List Nat → List Nat → Bool
  | [], [] => false
  | [], _ :: _ => true
  | _ :: _, [] => false
  | a :: as, b :: bs => if a < b then true else if b < a then false else bytesLt as bs

/-- Strict lexicographic order on `IndexKey`s — the derived `Ord` on
`(camera_id, start_ts, segment_id)`. -/
def keyLt (k l : List Nat × Int × Nat) : Bool :=
  bytesLt k.1 l.1 ||
    (k.1 == l.1 &&
      (decide (k.2.1 < l.2.1) || (k.2.1 == l.2.1 && decide (k.2.2 < l.2.2))))

/-- Place a new entry at its key position in the ordered entry list (the
`BTreeMap` insert; keys are unique because every key carries a fresh
segment_id). -/
def insortMeta (m : SegmentMeta) : List SegmentMeta → List SegmentMeta
  | [] => [m]
  | x :: xs => if keyLt (mkey m) (mkey x) then m :: x :: xs else x :: insortMeta m xs

/-- `SegmentIndex` (index.rs): the `BTreeMap` is modelled as its ordered list
of values. -/
structure SegmentIndex where
  entries : List SegmentMeta
  segment_counter : Nat
deriving Repr, DecidableEq

def SegmentIndex.empty : SegmentIndex := ⟨[], 0⟩

/-- `SegmentIndex::insert`: allocate the next id, insert, return the id. -/
def SegmentIndex.insert (idx : SegmentIndex) (cam : List Nat) (s e : Int)
    (loc : SegmentLocation) : Nat × SegmentIndex :=
  let id := idx.segment_counter
  (id, ⟨insortMeta ⟨id, cam, s, e, loc⟩ idx.entries, id + 1⟩)

/-- `SegmentIndex::evict_pool`: drop every entry whose location is in
`pool_idx`. -/
def SegmentIndex.evict_pool (idx : SegmentIndex) (pool_idx : Nat) : SegmentIndex :=
  { idx with entries := idx.entries.filter (fun m => !(m.location.pool_idx == pool_idx)) }

/-- `SegmentIndex::segments_for_camera`: the values iterator filtered by
camera. -/
def SegmentIndex.segments_for_camera (idx : SegmentIndex) (cam : List Nat) :
    List SegmentMeta :=
  idx.entries.filter (fun m => m.camera_id == cam)

/-- `SegmentIndex::segments_in_range`: values with the same camera and
`start_ts < to && end_ts > from`. -/
def SegmentIndex.segments_in_range (idx : SegmentIndex) (cam : List Nat)
    (from_ to_ : Int) : List SegmentMeta :=
  idx.entries.filter
    (fun m => m.camera_id == cam && decide (m.start_ts < to_) && decide (m.end_ts > from_))

/-- `SegmentIndex::all_segments`: the values iterator. -/
def SegmentIndex.all_segments (idx : SegmentIndex) : List SegmentMeta :=
  idx.entries

def SegmentIndex.len (idx : SegmentIndex) : Nat := idx.entries.length

/-- `SegmentIndex::rebuild_from_scanned`: clear, reset the counter, re-insert
each scanned record in the given order. -/
def SegmentIndex.rebuild_from_scanned (recs : List ScannedRecord) : SegmentIndex :=
  recs.foldl
    (fun acc r =>
      (acc.insert r.camera_id r.start_ts r.end_ts
        ⟨r.pool_idx, r.pool_id, r.record_offset, r.record_size⟩).2)
    SegmentIndex.empty

-- ───────────────────────────── global writer ─────────────────────────────

/-- `WriteRequest` (global_writer.rs). -/
structure WriteRequest where
  camera_id : List Nat
  start_ts : Int
  end_ts : Int
  data : List Nat
deriving Repr, DecidableEq

/-- One iteration of `writer_loop` on a dequeued request: pre-rotation
eviction when `used + record_size > cap`, then `append`, then `insert` on
success (the request is dropped on append error). -/
def writerStep (pool : ChunkPool) (idx : SegmentIndex) (req : WriteRequest)
    (now : Int) : ChunkPool × SegmentIndex :=
  let st := status pool
  let record_size := 40 + req.data.length
  let idx1 := if st.2.1 + record_size > st.2.2
    then idx.evict_pool ((st.1 + 1) % pool.slots.length) else idx
  match append pool req.camera_id req.start_ts req.end_ts req.data now with
  | (some loc, pool2) =>
    (pool2, (idx1.insert req.camera_id req.start_ts req.end_ts loc).2)
  | (none, pool2) => (pool2, idx1)

/-- Process a request list through `writer_loop`. -/
def writerRun : ChunkPool × SegmentIndex → List WriteRequest → ChunkPool × SegmentIndex
  | st, [] => st
  | (p, idx), r :: rs => writerRun (writerStep p idx r 0) rs

/-- Process a request list through bare `ChunkPool::append`, discarding
locations (the state after a sequence of appends). -/
def runAppends : ChunkPool → List WriteRequest → ChunkPool
  | p, [] => p
  | p, r :: rs => runAppends (append p r.camera_id r.start_ts r.end_ts r.data 0).2 rs

-- ─────────────────── invariants and derived descriptions ───────────────────

/-- Structural pool invariant: the write index is in range and every slot's
file has the pre-allocated length `64 + pool_capacity`. -/
def WFpool (p : ChunkPool) : Prop :=
  p.write_idx < p.slots.length ∧ ∀ s ∈ p.slots, s.file.length = 64 + p.pool_capacity

/-- Bounded-usage pool invariant: additionally every slot's `bytes_used` stays
within the pool capacity. -/
def WFbounds (p : ChunkPool) : Prop :=
  WFpool p ∧ ∀ s ∈ p.slots, s.bytes_used ≤ p.pool_capacity

/-- Index invariant: entries strictly sorted by `IndexKey`, every value's key
fields agree with its map key by construction, and all ids are below the
counter. -/
def WFindex (idx : SegmentIndex) : Prop :=
  idx.entries.Pairwise (fun a b => keyLt (mkey a) (mkey b) = true) ∧
    ∀ m ∈ idx.entries, m.segment_id < idx.segment_counter

/-- A camera id that survives the 16-byte zero-padded on-disk encoding:
at most 16 bytes and not ending in a NUL byte. -/
def camOk (cam : List Nat) : Prop :=
  cam.length ≤ 16 ∧ cam.getLast? ≠ some 0

/-- A request whose scanned metadata is identical to the appended metadata. -/
def reqOk (r : WriteRequest) : Prop :=
  camOk r.camera_id ∧ r.data.length < 4294967296 ∧
    -9223372036854775808 ≤ r.start_ts ∧ r.start_ts < 9223372036854775808 ∧
    -9223372036854775808 ≤ r.end_ts ∧ r.end_ts < 9223372036854775808

/-- The bytes a request list appends, back to back. -/
def encodeRecs (reqs : List WriteRequest) : List Nat :=
  (reqs.map (fun r => recordBytes r.camera_id r.start_ts r.end_ts r.data)).flatten

/-- Total record size of a request list. -/
def totalSize (reqs : List WriteRequest) : Nat :=
  (reqs.map (fun r => 40 + r.data.length)).sum

/-- The scan output predicted for a back-to-back chain of appended records
starting at `offset`. -/
def expectedScan (pi pid : Nat) : List WriteRequest → Nat → List ScannedRecord
  | [], _ => []
  | r :: rs, offset =>
    ⟨r.camera_id, r.start_ts, r.end_ts, pi, pid, offset, 40 + r.data.length⟩
      :: expectedScan pi pid rs (offset + (40 + r.data.length))

/-- The index contents predicted for `rebuild_from_scanned`: fresh ids 0, 1, …
assigned in scan order. -/
def metasOf (recs : List ScannedRecord) (base : Nat) : List SegmentMeta :=
  match recs with
  | [] => []
  | r :: rs =>
    ⟨base, r.camera_id, r.start_ts, r.end_ts, ⟨r.pool_idx, r.pool_id, r.record_offset, r.record_size⟩⟩
      :: metasOf rs (base + 1)

/-- The observable quadruple of an index entry. -/
def quadOf (m : SegmentMeta) : List Nat × Int × Int × Nat :=
  (m.camera_id, m.start_ts, m.end_ts, m.location.record_size - 40)

/-- The observable quadruple of a write request. -/
def quadOfReq (r : WriteRequest) : List Nat × Int × Int × Nat :=
  (r.camera_id, r.start_ts, r.end_ts, r.data.length)

/-- Ascending `(start_ts, segment_id)` order between two entries of one
camera. -/
def tsIdLt (a b : SegmentMeta) : Prop :=
  a.start_ts < b.start_ts ∨ (a.start_ts = b.start_ts ∧ a.segment_id < b.segment_id)

/-- The pool_id `ChunkPool::open` adopts for a slot: the header's pool_id for
an existing file, 0 for a missing one. -/
def pidOfOpt (f : Option (List Nat)) : Nat :=
  match f with
  | some g => (read_pool_header g).1
  | none => 0

/-- An index reached by a sequence of `insert` calls on a fresh index. -/
def buildIndex (ops : List (List Nat × Int × Int × SegmentLocation)) : SegmentIndex :=
  ops.foldl (fun acc o => (acc.insert o.1 o.2.1 o.2.2.1 o.2.2.2).2) SegmentIndex.empty

/-- Five one-camera-each 21-byte requests (record size 61): with
`pool_capacity = 122` and `max_pools = 2` two records fit per slot, so the
fifth request rotates back into slot 0 and overwrites only the first record
there, leaving the second one's bytes intact behind the new record. -/
def resurrectReqs : List WriteRequest :=
  [⟨[97], 1, 1, List.replicate 21 0⟩,
   ⟨[98], 2, 2, List.replicate 21 0⟩,
   ⟨[99], 3, 3, List.replicate 21 0⟩,
   ⟨[100], 4, 4, List.replicate 21 0⟩,
   ⟨[101], 5, 5, List.replicate 21 0⟩]

/-- State of a pool after a rotation-free run: all appended records sit back to
back in slot 0 behind its fresh header, the other slots are untouched
zero-filled pre-allocations. -/
def Slot0State (cap n : Nat) (now : Int) (done : List WriteRequest) (p : ChunkPool) : Prop :=
  p.pool_capacity = cap ∧ p.write_idx = 0 ∧ p.slots.length = n ∧
  (p.slots.getD 0 default).pool_id = 0 ∧
  (p.slots.getD 0 default).bytes_used = totalSize done ∧
  (p.slots.getD 0 default).file.take 64 = poolHeaderBytes 0 now ∧
  (p.slots.getD 0 default).file.drop 64
    = encodeRecs done ++ List.replicate (cap - totalSize done) 0 ∧
  (p.slots.getD 0 default).file.length = 64 + cap ∧
  (∀ j, 0 < j → j < n → p.slots.getD j default = ⟨j, 0, List.replicate (64 + cap) 0⟩)

end OasisNvr

namespace OasisNvr

-- ───────────────────────── encoding length lemmas ─────────────────────────

theorem u32le_length (n : Nat) : (u32le n).length = 4 := rfl

theorem u64le_length (n : Nat) : (u64le n).length = 8 := rfl

theorem i64le_length (z : Int) : (i64le z).length = 8 := rfl

theorem encodeCam_length (cam : List Nat) : (encodeCam cam).length = 16 := by
  simp [encodeCam]
  omega

theorem recordHeaderBytes_length (cam : List Nat) (s e : Int) (dl : Nat) :
    (recordHeaderBytes cam s e dl).length = 40 := by
  simp [recordHeaderBytes, RECORD_MAGIC, encodeCam_length, i64le_length, u32le_length]

theorem recordBytes_length (cam : List Nat) (s e : Int) (data : List Nat) :
    (recordBytes cam s e data).length = 40 + data.length := by
  simp [recordBytes, recordHeaderBytes_length]

theorem poolHeaderBytes_length (pid : Nat) (c : Int) :
    (poolHeaderBytes pid c).length = 64 := by
  simp [poolHeaderBytes, POOL_MAGIC, u64le_length, i64le_length]

-- ───────────────────────── writeAt / readAt lemmas ─────────────────────────

theorem writeAt_length {f bs : List Nat} {off : Nat} (h : off + bs.length ≤ f.length) :
    (writeAt f off bs).length = f.length := by
  simp [writeAt]
  omega

theorem drop_writeAt {f bs : List Nat} {off : Nat} (h : off ≤ f.length) :
    (writeAt f off bs).drop off = bs ++ f.drop (off + bs.length) := by
  have hlen : (f.take off).length = off := by simp; omega
  simp only [writeAt, List.append_assoc]
  rw [List.drop_left' hlen]

theorem readAt_writeAt_payload {f data : List Nat} {off : Nat} (cam : List Nat)
    (s e : Int) (h : off ≤ f.length) :
    readAt (writeAt f off (recordBytes cam s e data)) (off + 40) data.length = data := by
  have h1 : (f.take off ++ recordHeaderBytes cam s e data.length).length = off + 40 := by
    simp [recordHeaderBytes_length]
    omega
  have h2 : writeAt f off (recordBytes cam s e data)
      = (f.take off ++ recordHeaderBytes cam s e data.length)
        ++ (data ++ f.drop (off + (recordBytes cam s e data).length)) := by
    simp [writeAt, recordBytes, List.append_assoc]
  rw [readAt, h2, List.drop_left' h1, List.take_left]

theorem getD_mem {α : Type} {l : List α} {i : Nat} (d : α) (h : i < l.length) :
    l.getD i d ∈ l := by
  rw [List.getD_eq_getElem _ _ h]
  exact List.getElem_mem h

theorem getD_set_self {α : Type} {l : List α} {i : Nat} (a d : α) (h : i < l.length) :
    (l.set i a).getD i d = a := by
  rw [List.getD_eq_getElem _ _ (by simpa using h)]
  simp

-- ───────────────────────── pool invariant lemmas ─────────────────────────

theorem rotate_capacity (p : ChunkPool) (now : Int) :
    (rotate p now).pool_capacity = p.pool_capacity := rfl

theorem rotate_WFpool {p : ChunkPool} (now : Int) (h : WFpool p) :
    WFpool (rotate p now) := by
  obtain ⟨hw, hf⟩ := h
  have hn : 0 < p.slots.length := Nat.lt_of_le_of_lt (Nat.zero_le _) hw
  have hidx : (p.write_idx + 1) % p.slots.length < p.slots.length := Nat.mod_lt _ hn
  constructor
  · simpa [rotate] using hidx
  · intro s hs
    simp only [rotate] at hs
    rcases List.mem_or_eq_of_mem_set hs with h1 | h1
    · exact hf s h1
    · subst h1
      have hold : p.slots.getD ((p.write_idx + 1) % p.slots.length) default ∈ p.slots :=
        getD_mem _ hidx
      have hlen := hf _ hold
      simp only [rotate_capacity]
      rw [writeAt_length (by rw [hlen, poolHeaderBytes_length]; omega)]
      exact hlen

theorem rotate_bytes_used {p : ChunkPool} (now : Int) (h : WFpool p) :
    ((rotate p now).slots.getD (rotate p now).write_idx default).bytes_used = 0 := by
  have hn : 0 < p.slots.length := Nat.lt_of_le_of_lt (Nat.zero_le _) h.1
  have hidx : (p.write_idx + 1) % p.slots.length < p.slots.length := Nat.mod_lt _ hn
  simp only [rotate]
  rw [getD_set_self _ _ (by simpa using hidx)]

theorem rotate_WFbounds {p : ChunkPool} (now : Int) (h : WFbounds p) :
    WFbounds (rotate p now) := by
  refine ⟨rotate_WFpool now h.1, ?_⟩
  intro s hs
  simp only [rotate] at hs
  rcases List.mem_or_eq_of_mem_set hs with h1 | h1
  · exact h.2 s h1
  · subst h1
    exact Nat.zero_le _

theorem append_ok {p : ChunkPool} (cam : List Nat) (s e : Int) (data : List Nat)
    (now : Int) (hWF : WFpool p) (h : 40 + data.length ≤ p.pool_capacity) :
    ∃ loc p', append p cam s e data now = (some loc, p') ∧
      read_segment_data p' loc = data ∧ WFpool p' ∧
      64 ≤ loc.record_offset ∧
      loc.record_offset + loc.record_size ≤ 64 + p.pool_capacity ∧
      loc.record_size = 40 + data.length ∧
      (WFbounds p → WFbounds p') := by
  have hnot : ¬ (40 + data.length > p.pool_capacity) := by omega
  set p1 := if (p.slots.getD p.write_idx default).bytes_used + (40 + data.length) > p.pool_capacity
    then rotate p now else p with hp1
  have hWF1 : WFpool p1 := by
    rw [hp1]; split
    · exact rotate_WFpool now hWF
    · exact hWF
  have hcap1 : p1.pool_capacity = p.pool_capacity := by
    rw [hp1]; split <;> rfl
  have hb1 : WFbounds p → WFbounds p1 := by
    intro hb
    rw [hp1]; split
    · exact rotate_WFbounds now hb
    · exact hb
  have hbu : (p1.slots.getD p1.write_idx default).bytes_used + (40 + data.length)
      ≤ p.pool_capacity := by
    rw [hp1]; split
    · rw [rotate_bytes_used now hWF]
      omega
    · omega
  have hlt1 : p1.write_idx < p1.slots.length := hWF1.1
  set slot := p1.slots.getD p1.write_idx default with hslot
  have hmem : slot ∈ p1.slots := getD_mem _ hlt1
  have hflen : slot.file.length = 64 + p.pool_capacity := by
    have := hWF1.2 slot hmem
    rwa [hcap1] at this
  set p2 : ChunkPool := { p1 with slots := p1.slots.set p1.write_idx (PoolSlot.mk slot.pool_id (slot.bytes_used + (40 + data.length)) (writeAt slot.file (64 + slot.bytes_used) (recordBytes cam s e data))) } with hp2
  have hWF2 : WFpool p2 := by
    constructor
    · rw [hp2]
      simpa using hlt1
    · intro t ht
      rw [hp2] at ht
      simp only at ht
      rcases List.mem_or_eq_of_mem_set ht with h1 | h1
      · have := hWF1.2 t h1
        rw [show p2.pool_capacity = p1.pool_capacity from rfl]
        exact this
      · subst h1
        simp only
        rw [writeAt_length (by rw [recordBytes_length, hflen]; omega)]
        rw [show p2.pool_capacity = p1.pool_capacity from rfl, hcap1]
        exact hflen
  refine ⟨⟨p1.write_idx, slot.pool_id, 64 + slot.bytes_used, 40 + data.length⟩, p2,
    ?_, ?_, hWF2, Nat.le_add_right 64 slot.bytes_used,
    (by show 64 + slot.bytes_used + (40 + data.length) ≤ 64 + p.pool_capacity; omega), rfl, ?_⟩
  · simp only [append]
    rw [if_neg hnot, ← hp1, ← hslot, ← hp2]
  · simp only [read_segment_data, hp2]
    rw [getD_set_self _ _ hlt1]
    simp only
    have hd : 40 + data.length - 40 = data.length := by omega
    rw [hd, show 64 + slot.bytes_used + 40 = (64 + slot.bytes_used) + 40 from rfl]
    exact readAt_writeAt_payload cam s e (by rw [hflen]; omega)
  · intro hb
    have hb2 := hb1 hb
    refine ⟨hWF2, ?_⟩
    intro t ht
    rw [hp2] at ht
    simp only at ht
    rcases List.mem_or_eq_of_mem_set ht with h1 | h1
    · have := hb2.2 t h1
      rw [hp2]
      simpa [hcap1] using this
    · subst h1
      rw [hp2]
      simp only [hcap1]
      omega

end OasisNvr

namespace OasisNvr

theorem append_capacity (p : ChunkPool) (cam : List Nat) (s e : Int)
    (data : List Nat) (now : Int) :
    (append p cam s e data now).2.pool_capacity = p.pool_capacity := by
  simp only [append]
  split
  · rfl
  · split <;> rfl

theorem append_WFpool {p : ChunkPool} (cam : List Nat) (s e : Int) (data : List Nat)
    (now : Int) (hWF : WFpool p) : WFpool (append p cam s e data now).2 := by
  by_cases h : 40 + data.length ≤ p.pool_capacity
  · obtain ⟨loc, p', heq, _, hWF', _⟩ := append_ok cam s e data now hWF h
    rw [heq]
    exact hWF'
  · have : append p cam s e data now = (none, p) := by
      simp only [append]
      rw [if_pos (by omega)]
    rw [this]
    exact hWF

theorem runAppends_WFpool {p : ChunkPool} (reqs : List WriteRequest)
    (hWF : WFpool p) : WFpool (runAppends p reqs) := by
  induction reqs generalizing p with
  | nil => exact hWF
  | cons r rs ih =>
    exact ih (append_WFpool _ _ _ _ _ hWF)

theorem runAppends_capacity (p : ChunkPool) (reqs : List WriteRequest) :
    (runAppends p reqs).pool_capacity = p.pool_capacity := by
  induction reqs generalizing p with
  | nil => rfl
  | cons r rs ih =>
    rw [runAppends, ih, append_capacity]

theorem openFresh_capacity (cap n : Nat) (now : Int) :
    (openFresh cap n now).pool_capacity = cap := rfl

theorem openFresh_WFpool {cap n : Nat} (now : Int) (hn : 0 < n) :
    WFpool (openFresh cap n now) := by
  constructor
  · simpa [openFresh, writePoolHeader] using hn
  · intro s hs
    simp only [openFresh, writePoolHeader] at hs
    rcases List.mem_or_eq_of_mem_set hs with h1 | h1
    · obtain ⟨i, _, rfl⟩ := List.mem_map.mp h1
      simp [openFresh_capacity]
    · subst h1
      have hlen0 : (((List.range n).map
          (fun i => (⟨i, 0, List.replicate (64 + cap) 0⟩ : PoolSlot))).getD 0 default).file.length
            = 64 + cap := by
        have h0 : (0 : Nat) < ((List.range n).map
            (fun i => (⟨i, 0, List.replicate (64 + cap) 0⟩ : PoolSlot))).length := by
          simpa using hn
        have := getD_mem (default : PoolSlot) h0
        obtain ⟨i, _, heq⟩ := List.mem_map.mp this
        rw [← heq]
        simp
      simp only
      rw [writeAt_length (by rw [hlen0, poolHeaderBytes_length]; omega)]
      rw [hlen0]
      rfl

end OasisNvr

namespace OasisNvr

/-- C1: Write-read round-trip.  After any sequence of appends on a freshly
opened pool, an append whose record fits (`40 + |data| ≤ pool_capacity`)
succeeds and `read_segment_data` on the returned location yields exactly the
appended payload; and the first append of a 21-byte payload into a fresh pool
returns `pool_idx = 0`, `record_offset = 64`, `record_size = 61` and reads back
verbatim. -/
theorem C1_write_read_round_trip :
    (∀ (cap n : Nat) (now : Int) (reqs : List WriteRequest) (r : WriteRequest),
      0 < n → 40 + r.data.length ≤ cap →
      ∃ loc p',
        append (runAppends (openFresh cap n now) reqs)
            r.camera_id r.start_ts r.end_ts r.data 0 = (some loc, p') ∧
          read_segment_data p' loc = r.data) ∧
    ((append (openFresh 100 3 0) [99, 97, 109, 49] 0 1 (List.replicate 21 7) 0).1
        = some ⟨0, 0, 64, 61⟩ ∧
      read_segment_data
          (append (openFresh 100 3 0) [99, 97, 109, 49] 0 1 (List.replicate 21 7) 0).2
          ⟨0, 0, 64, 61⟩
        = List.replicate 21 7) := by
  constructor
  · intro cap n now reqs r hn hfit
    have hWF : WFpool (runAppends (openFresh cap n now) reqs) :=
      runAppends_WFpool reqs (openFresh_WFpool now hn)
    have hcap : (runAppends (openFresh cap n now) reqs).pool_capacity = cap := by
      rw [runAppends_capacity, openFresh_capacity]
    obtain ⟨loc, p', heq, hread, _⟩ :=
      append_ok r.camera_id r.start_ts r.end_ts r.data 0 hWF (by omega)
    exact ⟨loc, p', heq, hread⟩
  · constructor
    · decide
    · decide

/-- Witness for C1 at a concrete input: three fresh slots of capacity 100, one
prior append, then a fitting 21-byte append. -/
theorem C1_write_read_round_trip_witness :
    ∃ loc p',
      append (runAppends (openFresh 100 3 0) [⟨[97], 5, 6, List.replicate 10 3⟩])
          [99, 97, 109, 49] 0 1 (List.replicate 21 7) 0 = (some loc, p') ∧
        read_segment_data p' loc = List.replicate 21 7 :=
  C1_write_read_round_trip.1 100 3 0 [⟨[97], 5, 6, List.replicate 10 3⟩]
    ⟨[99, 97, 109, 49], 0, 1, List.replicate 21 7⟩ (by norm_num) (by simp)

end OasisNvr

namespace OasisNvr

/-- C4 (amended): An oversized append (`40 + |data| > pool_capacity`) fails
with `OversizedSegment`, leaves the pool state unchanged and is not retried;
but since `bytes_used + record_size > capacity` necessarily holds for such a
request, the writer's pre-rotation eviction has already removed every index
entry of the next slot `(write_idx + 1) % max_pools` before `append` is even
called, so the live index entries are not preserved. -/
theorem C4_oversized_rejection (p : ChunkPool) (idx : SegmentIndex)
    (req : WriteRequest) (now : Int) (h : 40 + req.data.length > p.pool_capacity) :
    append p req.camera_id req.start_ts req.end_ts req.data now = (none, p) ∧
    writerStep p idx req now
      = (p, idx.evict_pool ((p.write_idx + 1) % p.slots.length)) := by
  have h1 : append p req.camera_id req.start_ts req.end_ts req.data now = (none, p) := by
    simp only [append]
    rw [if_pos h]
  refine ⟨h1, ?_⟩
  simp only [writerStep, status]
  rw [if_pos (by omega)]
  rw [h1]

/-- Witness for C4 (amended) at a concrete input: fresh 2-slot pool of
capacity 100 and a 200-byte payload. -/
theorem C4_oversized_rejection_witness :
    append (openFresh 100 2 0) [99] 4 5 (List.replicate 200 3) 0
      = (none, openFresh 100 2 0) ∧
    writerStep (openFresh 100 2 0) SegmentIndex.empty ⟨[99], 4, 5, List.replicate 200 3⟩ 0
      = (openFresh 100 2 0, SegmentIndex.empty.evict_pool
          (((openFresh 100 2 0).write_idx + 1) % (openFresh 100 2 0).slots.length)) :=
  C4_oversized_rejection (openFresh 100 2 0) SegmentIndex.empty
    ⟨[99], 4, 5, List.replicate 200 3⟩ 0 (by decide)

/-- C4 counterexample: after two fitting appends the index holds 2 entries
(one per slot); a subsequent oversized request leaves the pool unchanged but
shrinks the index to 1 entry (the next slot's entry is evicted although no
rotation happens), so the storage state is not unchanged as claimed. -/
theorem C4_counterexample :
    (writerRun (openFresh 100 2 0, SegmentIndex.empty)
        [⟨[97], 0, 1, List.replicate 30 1⟩, ⟨[98], 2, 3, List.replicate 30 2⟩]).2.len = 2 ∧
    (writerStep
        (writerRun (openFresh 100 2 0, SegmentIndex.empty)
          [⟨[97], 0, 1, List.replicate 30 1⟩, ⟨[98], 2, 3, List.replicate 30 2⟩]).1
        (writerRun (openFresh 100 2 0, SegmentIndex.empty)
          [⟨[97], 0, 1, List.replicate 30 1⟩, ⟨[98], 2, 3, List.replicate 30 2⟩]).2
        ⟨[99], 4, 5, List.replicate 200 3⟩ 0).1
      = (writerRun (openFresh 100 2 0, SegmentIndex.empty)
          [⟨[97], 0, 1, List.replicate 30 1⟩, ⟨[98], 2, 3, List.replicate 30 2⟩]).1 ∧
    (writerStep
        (writerRun (openFresh 100 2 0, SegmentIndex.empty)
          [⟨[97], 0, 1, List.replicate 30 1⟩, ⟨[98], 2, 3, List.replicate 30 2⟩]).1
        (writerRun (openFresh 100 2 0, SegmentIndex.empty)
          [⟨[97], 0, 1, List.replicate 30 1⟩, ⟨[98], 2, 3, List.replicate 30 2⟩]).2
        ⟨[99], 4, 5, List.replicate 200 3⟩ 0).2.len = 1 := by
  decide

end OasisNvr

namespace OasisNvr

theorem getD_set_ne {α : Type} {l : List α} {i j : Nat} (a d : α) (h : i ≠ j) :
    (l.set i a).getD j d = l.getD j d := by
  simp [List.getD_eq_getElem?_getD, List.getElem?_set_ne h]

/-- C6 (amended): Rotation into slot `i = (write_idx + 1) % max_pools` sets
that slot's pool_id to its previous pool_id plus exactly `max_pools`, zeroes
its `bytes_used`, and leaves every other slot untouched; hence the pool_ids of
a fixed slot strictly increase by exactly `max_pools` per rotation into it.
Pool_ids are NOT strictly increasing over time across different slots (see the
counterexample): with the fresh initialisation `pool_id = slot index`, the
first wrap-around installs a smaller pool_id than the rotation before it. -/
theorem C6_rotate_pool_id_advance (p : ChunkPool) (now : Int) (i : Nat)
    (hn : 0 < p.slots.length) (hi : i = (p.write_idx + 1) % p.slots.length) :
    (rotate p now).write_idx = i ∧
    ((rotate p now).slots.getD i default).pool_id
      = (p.slots.getD i default).pool_id + p.slots.length ∧
    ((rotate p now).slots.getD i default).bytes_used = 0 ∧
    ∀ j, j ≠ i → (rotate p now).slots.getD j default = p.slots.getD j default := by
  subst hi
  have hidx : (p.write_idx + 1) % p.slots.length < p.slots.length := Nat.mod_lt _ hn
  refine ⟨rfl, ?_, ?_, ?_⟩
  · simp only [rotate]
    rw [getD_set_self _ _ hidx]
  · simp only [rotate]
    rw [getD_set_self _ _ hidx]
  · intro j hj
    simp only [rotate]
    rw [getD_set_ne _ _ (fun heq => hj heq.symm)]

/-- Witness for C6 (amended) at a concrete input: fresh 2-slot pool, first
rotation targets slot 1. -/
theorem C6_rotate_pool_id_advance_witness :
    (rotate (openFresh 100 2 0) 0).write_idx = 1 ∧
    ((rotate (openFresh 100 2 0) 0).slots.getD 1 default).pool_id
      = ((openFresh 100 2 0).slots.getD 1 default).pool_id + (openFresh 100 2 0).slots.length ∧
    ((rotate (openFresh 100 2 0) 0).slots.getD 1 default).bytes_used = 0 ∧
    ∀ j, j ≠ 1 →
      (rotate (openFresh 100 2 0) 0).slots.getD j default
        = (openFresh 100 2 0).slots.getD j default :=
  C6_rotate_pool_id_advance (openFresh 100 2 0) 0 1 (by decide) (by decide)

/-- C6 counterexample: on a fresh 2-slot pool the first rotation (into slot 1)
installs pool_id 3 while the second rotation (into slot 0) installs pool_id 2 —
the pool_id installed later is smaller, so pool_ids across all slots are not
strictly increasing over time. -/
theorem C6_counterexample :
    ((rotate (openFresh 100 2 0) 0).slots.getD 1 default).pool_id = 3 ∧
    ((rotate (rotate (openFresh 100 2 0) 0) 0).slots.getD 0 default).pool_id = 2 ∧
    ¬ ((rotate (openFresh 100 2 0) 0).slots.getD 1 default).pool_id
        < ((rotate (rotate (openFresh 100 2 0) 0) 0).slots.getD 0 default).pool_id := by
  decide

end OasisNvr

namespace OasisNvr

theorem scanLoop_succ (fuel : Nat) (file : List Nat) (pool_idx pool_id limit offset : Nat) :
    scanLoop (fuel + 1) file pool_idx pool_id limit offset
      = if offset + 40 ≤ limit then
          if readAt file offset 4 = RECORD_MAGIC then
            let cam := trimTrailingZeros (readAt file (offset + 4) 16)
            let s := readI64 (readAt file (offset + 20) 8)
            let e := readI64 (readAt file (offset + 28) 8)
            let dl := readU32 (readAt file (offset + 36) 4)
            let rs := 40 + dl
            if offset + rs > limit then []
            else ⟨cam, s, e, pool_idx, pool_id, offset, rs⟩
              :: scanLoop fuel file pool_idx pool_id limit (offset + rs)
          else []
        else [] := rfl

/-- C3 (amended): A pool file whose 8-byte header magic is not `NVRPOOL0` is
adopted with `pool_id = 0` (`read_pool_header` returns `(0, 0)`); but scanning
is independent of the pool header — it starts at offset 64 regardless — so the
slot yields no records (and hence `bytes_used = 0`) only when the body does not
start with the `NREC` record magic; intact records in the body of a
corrupt-header file are still recovered (see the counterexample). -/
theorem C3_corrupt_pool_header (capacity i : Nat) (file : List Nat)
    (h : readAt file 0 8 ≠ POOL_MAGIC) :
    read_pool_header file = (0, 0) ∧
    (openSlot capacity i (some file)).pool_id = 0 ∧
    (readAt file 64 4 ≠ RECORD_MAGIC →
      scan_records file i 0 capacity = [] ∧
      (openSlot capacity i (some file)).bytes_used = 0) := by
  have h1 : read_pool_header file = (0, 0) := by
    simp only [read_pool_header]
    rw [if_neg h]
  have hpid : (read_pool_header file).1 = 0 := by rw [h1]
  refine ⟨h1, by simp only [openSlot, hpid], ?_⟩
  intro h2
  have hscan : scan_records file i 0 capacity = [] := by
    have hk : 64 + capacity = (63 + capacity) + 1 := by omega
    rw [scan_records, hk, scanLoop_succ]
    by_cases h40 : 64 + 40 ≤ (63 + capacity) + 1
    · rw [if_pos h40, if_neg h2]
    · rw [if_neg h40]
  refine ⟨hscan, ?_⟩
  simp only [openSlot, hpid, hscan]
  rfl

/-- Witness for C3 (amended) at a concrete input: a 164-byte file filled with
the byte 5 (header magic wrong, body does not start with `NREC`). -/
theorem C3_corrupt_pool_header_witness :
    read_pool_header (List.replicate 164 5) = (0, 0) ∧
    (openSlot 100 0 (some (List.replicate 164 5))).pool_id = 0 ∧
    (readAt (List.replicate 164 5) 64 4 ≠ RECORD_MAGIC →
      scan_records (List.replicate 164 5) 0 0 100 = [] ∧
      (openSlot 100 0 (some (List.replicate 164 5))).bytes_used = 0) :=
  C3_corrupt_pool_header 100 0 (List.replicate 164 5) (by decide)

/-- C3 counterexample: a capacity-100 pool file whose first 64 bytes are zeros
(header magic mismatch) but whose body holds one intact 61-byte record: open
adopts pool_id 0, yet the scan recovers that record and `bytes_used` is 61, not
0 — the slot's bytes are not treated as overwritable garbage by the scan. -/
theorem C3_counterexample :
    read_pool_header
        (List.replicate 64 0 ++ recordBytes [99] 1 2 (List.replicate 21 9)
          ++ List.replicate 39 0) = (0, 0) ∧
    scan_records
        (List.replicate 64 0 ++ recordBytes [99] 1 2 (List.replicate 21 9)
          ++ List.replicate 39 0) 0 0 100 ≠ [] ∧
    (openSlot 100 0 (some
        (List.replicate 64 0 ++ recordBytes [99] 1 2 (List.replicate 21 9)
          ++ List.replicate 39 0))).bytes_used = 61 := by
  decide

end OasisNvr

namespace OasisNvr

theorem bestAux_ge (fs : List (Option (List Nat))) :
    ∀ (i0 : Nat) (acc : Nat × Nat),
      acc.2 ≤ (bestAux i0 fs acc).2 ∧
        (bestAux i0 fs acc = acc ∨ i0 ≤ (bestAux i0 fs acc).1) := by
  induction fs with
  | nil => intro i0 acc; exact ⟨Nat.le_refl _, Or.inl rfl⟩
  | cons f fs ih =>
    intro i0 acc
    cases f with
    | none =>
      obtain ⟨h1, h2⟩ := ih (i0 + 1) acc
      simp only [bestAux]
      refine ⟨h1, ?_⟩
      rcases h2 with h2 | h2
      · exact Or.inl h2
      · exact Or.inr (by omega)
    | some g =>
      by_cases hp : (read_pool_header g).1 ≥ acc.2
      · obtain ⟨h1, h2⟩ := ih (i0 + 1) (i0, (read_pool_header g).1)
        simp only [bestAux, if_pos hp]
        refine ⟨le_trans hp h1, Or.inr ?_⟩
        rcases h2 with h2 | h2
        · rw [h2]
        · omega
      · obtain ⟨h1, h2⟩ := ih (i0 + 1) acc
        simp only [bestAux, if_neg hp]
        refine ⟨h1, ?_⟩
        rcases h2 with h2 | h2
        · exact Or.inl h2
        · exact Or.inr (by omega)

theorem bestAux_max (fs : List (Option (List Nat))) :
    ∀ (i0 : Nat) (acc : Nat × Nat) (j : Nat) (g : List Nat),
      fs.getD j none = some g → j < fs.length →
      (read_pool_header g).1 < (bestAux i0 fs acc).2 ∨
        ((read_pool_header g).1 = (bestAux i0 fs acc).2 ∧
          i0 + j ≤ (bestAux i0 fs acc).1) := by
  induction fs with
  | nil => intro _ _ j _ _ hj; simp at hj
  | cons f fs ih =>
    intro i0 acc j g hget hj
    cases j with
    | zero =>
      simp only [List.getD_cons_zero] at hget
      subst hget
      by_cases hp : (read_pool_header g).1 ≥ acc.2
      · simp only [bestAux, if_pos hp]
        obtain ⟨h1, h2⟩ := bestAux_ge fs (i0 + 1) (i0, (read_pool_header g).1)
        simp only at h1
        rcases Nat.lt_or_ge (read_pool_header g).1 (bestAux (i0 + 1) fs (i0, (read_pool_header g).1)).2 with hlt | hge
        · exact Or.inl hlt
        · have heq : (read_pool_header g).1 = (bestAux (i0 + 1) fs (i0, (read_pool_header g).1)).2 := by omega
          refine Or.inr ⟨heq, ?_⟩
          rcases h2 with h2 | h2
          · rw [h2]; omega
          · omega
      · simp only [bestAux, if_neg hp]
        obtain ⟨h1, _⟩ := bestAux_ge fs (i0 + 1) acc
        exact Or.inl (by omega)
    | succ j =>
      simp only [List.getD_cons_succ] at hget
      have hj' : j < fs.length := by simpa using hj
      cases f with
      | none =>
        have := ih (i0 + 1) acc j g hget hj'
        simp only [bestAux]
        rcases this with h | ⟨h1, h2⟩
        · exact Or.inl h
        · exact Or.inr ⟨h1, by omega⟩
      | some f0 =>
        by_cases hp : (read_pool_header f0).1 ≥ acc.2
        · have := ih (i0 + 1) (i0, (read_pool_header f0).1) j g hget hj'
          simp only [bestAux, if_pos hp]
          rcases this with h | ⟨h1, h2⟩
          · exact Or.inl h
          · exact Or.inr ⟨h1, by omega⟩
        · have := ih (i0 + 1) acc j g hget hj'
          simp only [bestAux, if_neg hp]
          rcases this with h | ⟨h1, h2⟩
          · exact Or.inl h
          · exact Or.inr ⟨h1, by omega⟩

theorem bestAux_exists (fs : List (Option (List Nat))) :
    ∀ (i0 : Nat) (acc : Nat × Nat),
      bestAux i0 fs acc = acc ∨
        ∃ j g, j < fs.length ∧ fs.getD j none = some g ∧
          (bestAux i0 fs acc).1 = i0 + j ∧
          (bestAux i0 fs acc).2 = (read_pool_header g).1 := by
  induction fs with
  | nil => intro i0 acc; exact Or.inl rfl
  | cons f fs ih =>
    intro i0 acc
    cases f with
    | none =>
      rcases ih (i0 + 1) acc with h | ⟨j, g, hj, hget, h1, h2⟩
      · exact Or.inl h
      · refine Or.inr ⟨j + 1, g, by simpa using hj, by simpa using hget, ?_, ?_⟩
        · simp only [bestAux]; omega
        · simpa [bestAux] using h2
    | some f0 =>
      by_cases hp : (read_pool_header f0).1 ≥ acc.2
      · rcases ih (i0 + 1) (i0, (read_pool_header f0).1) with h | ⟨j, g, hj, hget, h1, h2⟩
        · refine Or.inr ⟨0, f0, by simp, by simp, ?_, ?_⟩
          · simp only [bestAux, if_pos hp, h]; omega
          · simp only [bestAux, if_pos hp, h]
        · refine Or.inr ⟨j + 1, g, by simpa using hj, by simpa using hget, ?_, ?_⟩
          · simp only [bestAux, if_pos hp]; omega
          · simpa [bestAux, if_pos hp] using h2
      · rcases ih (i0 + 1) acc with h | ⟨j, g, hj, hget, h1, h2⟩
        · exact Or.inl (by simpa [bestAux, if_neg hp] using h)
        · refine Or.inr ⟨j + 1, g, by simpa using hj, by simpa using hget, ?_, ?_⟩
          · simp only [bestAux, if_neg hp]; omega
          · simpa [bestAux, if_neg hp] using h2

theorem openPool_slots_getD (capacity : Nat) (files : List (Option (List Nat)))
    (j : Nat) (hj : j < files.length) :
    (files.enum.map (fun x => openSlot capacity x.1 x.2)).getD j default
      = openSlot capacity j (files.getD j none) := by
  have hjl : j < (files.enum.map (fun x => openSlot capacity x.1 x.2)).length := by
    simpa using hj
  rw [List.getD_eq_getElem _ _ hjl, List.getElem_map]
  simp only [List.getElem_enum]
  rw [List.getD_eq_getElem _ _ hj]

end OasisNvr

namespace OasisNvr

/-- C2 (amended): On open of an existing base path, the write index resumes at
the slot whose adopted pool_id is maximal among the slots whose pool FILES
exist, with ties broken toward the LARGEST slot index (the fold updates on
`pid >= best`); a fresh pool header is written at slot 0 only when no pool
file existed at all (not when headers are merely invalid). -/
theorem C2_resume_slot (capacity : Nat) (files : List (Option (List Nat)))
    (now : Int) (hlen : 0 < files.length) :
    (files.any Option.isSome = true →
      (openPool capacity files now).write_idx < files.length ∧
      (files.getD (openPool capacity files now).write_idx none).isSome = true ∧
      (∀ j, j < files.length → (files.getD j none).isSome = true →
        pidOfOpt (files.getD j none)
            < pidOfOpt (files.getD (openPool capacity files now).write_idx none) ∨
          (pidOfOpt (files.getD j none)
              = pidOfOpt (files.getD (openPool capacity files now).write_idx none) ∧
            j ≤ (openPool capacity files now).write_idx))) ∧
    (files.any Option.isSome = false →
      (openPool capacity files now).write_idx = 0 ∧
      ((openPool capacity files now).slots.getD 0 default).file.take 64
        = poolHeaderBytes 0 now) := by
  constructor
  · intro hany
    have hw : (openPool capacity files now).write_idx = (bestAux 0 files (0, 0)).1 := by
      simp [openPool, hany]
    -- the result either stayed at the fake accumulator (0,0) or points at an
    -- existing file
    have hkey : (files.getD (bestAux 0 files (0, 0)).1 none).isSome = true ∧
        pidOfOpt (files.getD (bestAux 0 files (0, 0)).1 none) = (bestAux 0 files (0, 0)).2 ∧
        (bestAux 0 files (0, 0)).1 < files.length := by
      rcases bestAux_exists files 0 (0, 0) with hacc | ⟨j, g, hj, hget, h1, h2⟩
      · -- result = (0,0): some slot exists, and bestAux_max forces it to be
        -- slot 0 with pool_id 0
        obtain ⟨x, hx, hxs⟩ := List.any_eq_true.mp hany
        obtain ⟨i, hi, hie⟩ := List.getElem_of_mem hx
        obtain ⟨g, rfl⟩ : ∃ g, x = some g := by cases x <;> simp_all
        have hgd : files.getD i none = some g := by
          rw [List.getD_eq_getElem _ _ hi, hie]
        have := bestAux_max files 0 (0, 0) i g hgd hi
        rw [hacc] at this
        simp only at this
        rcases this with h | ⟨h1, h2⟩
        · omega
        · have hi0 : i = 0 := by omega
          subst hi0
          rw [hacc]
          simp only
          rw [hgd]
          refine ⟨rfl, ?_, hlen⟩
          simp [pidOfOpt, h1]
      · rw [Nat.zero_add] at h1
        rw [h1, hget]
        refine ⟨rfl, ?_, by omega⟩
        simp only [pidOfOpt]
        exact h2.symm
    rw [hw]
    refine ⟨hkey.2.2, hkey.1, ?_⟩
    intro j hj hjs
    obtain ⟨g, hg⟩ : ∃ g, files.getD j none = some g := by
      rcases h : files.getD j none with _ | g
      · rw [h] at hjs; simp at hjs
      · exact ⟨g, rfl⟩
    have := bestAux_max files 0 (0, 0) j g hg hj
    rw [hg]
    rw [hkey.2.1]
    simpa [pidOfOpt] using this
  · intro hnone
    have hall : ∀ x ∈ files, x = none := by
      intro x hx
      have := List.any_eq_false.mp hnone x hx
      cases x <;> simp_all
    have hget0 : files.getD 0 none = none := by
      rw [List.getD_eq_getElem _ _ hlen]
      exact hall _ (List.getElem_mem hlen)
    have hw : (openPool capacity files now).write_idx = 0 := by
      simp [openPool, hnone, writePoolHeader]
    refine ⟨hw, ?_⟩
    have hsl : (0 : Nat) < (files.enum.map (fun x => openSlot capacity x.1 x.2)).length := by
      simpa using hlen
    have hslot0 : (files.enum.map (fun x => openSlot capacity x.1 x.2)).getD 0 default
        = openSlot capacity 0 none := by
      rw [openPool_slots_getD capacity files 0 hlen, hget0]
    simp only [openPool, hnone]
    simp only [Bool.false_eq_true, if_false, writePoolHeader]
    rw [getD_set_self _ _ hsl]
    have hfile : ((files.enum.map (fun x => openSlot capacity x.1 x.2)).getD 0 default).file
        = List.replicate (64 + capacity) 0 := by rw [hslot0]; rfl
    have hpid : ((files.enum.map (fun x => openSlot capacity x.1 x.2)).getD 0 default).pool_id
        = 0 := by rw [hslot0]; rfl
    simp only [hfile, hpid]
    rw [show writeAt (List.replicate (64 + capacity) 0) 0
          (poolHeaderBytes 0 now)
        = poolHeaderBytes 0 now ++ List.drop 64 (List.replicate (64 + capacity) 0) from by
      simp [writeAt, poolHeaderBytes_length]]
    rw [List.take_left' (poolHeaderBytes_length 0 now)]

end OasisNvr

namespace OasisNvr

/-- Witness for C2 (amended) at a concrete input: a single existing pool file
with a valid header carrying pool_id 7. -/
theorem C2_resume_slot_witness :
    (([some (poolHeaderBytes 7 0 ++ List.replicate 50 0)].any Option.isSome = true →
      (openPool 50 [some (poolHeaderBytes 7 0 ++ List.replicate 50 0)] 0).write_idx
          < [some (poolHeaderBytes 7 0 ++ List.replicate 50 0)].length ∧
      ([some (poolHeaderBytes 7 0 ++ List.replicate 50 0)].getD
          (openPool 50 [some (poolHeaderBytes 7 0 ++ List.replicate 50 0)] 0).write_idx
          none).isSome = true ∧
      (∀ j, j < [some (poolHeaderBytes 7 0 ++ List.replicate 50 0)].length →
        (([some (poolHeaderBytes 7 0 ++ List.replicate 50 0)].getD j none).isSome = true) →
        pidOfOpt ([some (poolHeaderBytes 7 0 ++ List.replicate 50 0)].getD j none)
            < pidOfOpt ([some (poolHeaderBytes 7 0 ++ List.replicate 50 0)].getD
                (openPool 50 [some (poolHeaderBytes 7 0 ++ List.replicate 50 0)] 0).write_idx
                none) ∨
          (pidOfOpt ([some (poolHeaderBytes 7 0 ++ List.replicate 50 0)].getD j none)
              = pidOfOpt ([some (poolHeaderBytes 7 0 ++ List.replicate 50 0)].getD
                  (openPool 50 [some (poolHeaderBytes 7 0 ++ List.replicate 50 0)] 0).write_idx
                  none) ∧
            j ≤ (openPool 50 [some (poolHeaderBytes 7 0 ++ List.replicate 50 0)] 0).write_idx))) ∧
    ([some (poolHeaderBytes 7 0 ++ List.replicate 50 0)].any Option.isSome = false →
      (openPool 50 [some (poolHeaderBytes 7 0 ++ List.replicate 50 0)] 0).write_idx = 0 ∧
      ((openPool 50 [some (poolHeaderBytes 7 0 ++ List.replicate 50 0)] 0).slots.getD 0
          default).file.take 64 = poolHeaderBytes 0 0)) :=
  C2_resume_slot 50 [some (poolHeaderBytes 7 0 ++ List.replicate 50 0)] 0 (by decide)

/-- C2 counterexample: two existing pool files whose headers both carry
pool_id 5 — a tie.  The claim requires resuming at the smallest such slot (0),
but the open resumes at slot 1 because the fold updates on `pid >= best`. -/
theorem C2_counterexample :
    (openPool 50 [some (poolHeaderBytes 5 0 ++ List.replicate 50 0),
                  some (poolHeaderBytes 5 0 ++ List.replicate 50 0)] 0).write_idx = 1 ∧
    pidOfOpt (some (poolHeaderBytes 5 0 ++ List.replicate 50 0)) = 5 ∧
    (openPool 50 [some (poolHeaderBytes 5 0 ++ List.replicate 50 0),
                  some (poolHeaderBytes 5 0 ++ List.replicate 50 0)] 0).write_idx ≠ 0 := by
  decide

end OasisNvr

namespace OasisNvr

theorem bytesLt_irrefl : ∀ a : List Nat, bytesLt a a = false := by
  intro a
  induction a with
  | nil => rfl
  | cons x xs ih => simp [bytesLt, ih]

theorem bytesLt_trans : ∀ a b c : List Nat,
    bytesLt a b = true → bytesLt b c = true → bytesLt a c = true := by
  intro a
  induction a with
  | nil =>
    intro b c hab hbc
    cases b with
    | nil => simp [bytesLt] at hab
    | cons y ys =>
      cases c with
      | nil => simp [bytesLt] at hbc
      | cons z zs => simp [bytesLt]
  | cons x xs ih =>
    intro b c hab hbc
    cases b with
    | nil => simp [bytesLt] at hab
    | cons y ys =>
      cases c with
      | nil => simp [bytesLt] at hbc
      | cons z zs =>
        simp only [bytesLt] at hab hbc ⊢
        by_cases h1 : x < y
        · by_cases h2 : y < z
          · rw [if_pos (Nat.lt_trans h1 h2)]
          · rw [if_neg h2] at hbc
            by_cases h4 : z < y
            · rw [if_pos h4] at hbc
              exact absurd hbc (by simp)
            · have h5 : y = z := by omega
              subst h5
              rw [if_pos h1]
        · rw [if_neg h1] at hab
          by_cases h6 : y < x
          · rw [if_pos h6] at hab
            exact absurd hab (by simp)
          · have h7 : x = y := by omega
            subst h7
            rw [if_neg h6] at hab
            by_cases h2 : x < z
            · rw [if_pos h2]
            · rw [if_neg h2] at hbc ⊢
              by_cases h4 : z < x
              · rw [if_pos h4] at hbc
                exact absurd hbc (by simp)
              · rw [if_neg h4] at hbc ⊢
                exact ih ys zs hab hbc

theorem bytesLt_total : ∀ a b : List Nat,
    bytesLt a b = false → bytesLt b a = false → a = b := by
  intro a
  induction a with
  | nil =>
    intro b hab _
    cases b with
    | nil => rfl
    | cons y ys => simp [bytesLt] at hab
  | cons x xs ih =>
    intro b hab hba
    cases b with
    | nil => simp [bytesLt] at hba
    | cons y ys =>
      simp only [bytesLt] at hab hba
      by_cases h1 : x < y
      · rw [if_pos h1] at hab
        exact absurd hab (by simp)
      · by_cases h2 : y < x
        · rw [if_pos h2] at hba
          exact absurd hba (by simp)
        · have h3 : x = y := by omega
          subst h3
          rw [if_neg h1, if_neg (by omega : ¬ x < x)] at hab
          rw [if_neg h1, if_neg (by omega : ¬ x < x)] at hba
          rw [ih ys hab hba]

theorem keyLt_trans {k l m : List Nat × Int × Nat}
    (h1 : keyLt k l = true) (h2 : keyLt l m = true) : keyLt k m = true := by
  simp only [keyLt, Bool.or_eq_true, Bool.and_eq_true, decide_eq_true_eq,
    beq_iff_eq] at h1 h2 ⊢
  rcases h1 with h1 | ⟨e1, h1⟩
  · rcases h2 with h2 | ⟨e2, h2⟩
    · exact Or.inl (bytesLt_trans _ _ _ h1 h2)
    · rw [← e2]
      exact Or.inl h1
  · rcases h2 with h2 | ⟨e2, h2⟩
    · rw [e1]
      exact Or.inl h2
    · refine Or.inr ⟨e1.trans e2, ?_⟩
      rcases h1 with h1 | ⟨f1, h1⟩ <;> rcases h2 with h2 | ⟨f2, h2⟩
      · exact Or.inl (lt_trans h1 h2)
      · rw [← f2]
        exact Or.inl h1
      · rw [f1]
        exact Or.inl h2
      · exact Or.inr ⟨f1.trans f2, Nat.lt_trans h1 h2⟩

theorem keyLt_total {k l : List Nat × Int × Nat}
    (h1 : keyLt k l = false) (h2 : keyLt l k = false) : k = l := by
  obtain ⟨kc, kt, ki⟩ := k
  obtain ⟨lc, lt2, li⟩ := l
  have hb1 : bytesLt kc lc = false := by
    cases hb : bytesLt kc lc
    · rfl
    · rw [keyLt] at h1
      simp [hb] at h1
  have hb2 : bytesLt lc kc = false := by
    cases hb : bytesLt lc kc
    · rfl
    · rw [keyLt] at h2
      simp [hb] at h2
  have hc : kc = lc := bytesLt_total _ _ hb1 hb2
  subst hc
  rw [keyLt] at h1 h2
  simp only [hb1, beq_self_eq_true, Bool.false_or, Bool.true_and] at h1 h2
  simp only [Bool.or_eq_false_iff, decide_eq_false_iff_not, Bool.and_eq_false_iff,
    beq_eq_false_iff_ne, ne_eq] at h1 h2
  obtain ⟨hn1, hr1⟩ := h1
  obtain ⟨hn2, hr2⟩ := h2
  have ht : kt = lt2 := by omega
  subst ht
  have hi : ki = li := by
    rcases hr1 with h | h
    · exact absurd rfl h
    · rcases hr2 with h2 | h2
      · exact absurd rfl h2
      · omega
  rw [hi]

end OasisNvr

namespace OasisNvr

theorem mem_insortMeta {m x : SegmentMeta} :
    ∀ {l : List SegmentMeta}, x ∈ insortMeta m l ↔ x = m ∨ x ∈ l := by
  intro l
  induction l with
  | nil => simp [insortMeta]
  | cons y ys ih =>
    simp only [insortMeta]
    split
    · simp [List.mem_cons]
    · simp only [List.mem_cons, ih]
      tauto

theorem insortMeta_pairwise {m : SegmentMeta} :
    ∀ {l : List SegmentMeta},
      l.Pairwise (fun a b => keyLt (mkey a) (mkey b) = true) →
      (∀ x ∈ l, ¬ mkey x = mkey m) →
      (insortMeta m l).Pairwise (fun a b => keyLt (mkey a) (mkey b) = true) := by
  intro l
  induction l with
  | nil => intro _ _; simp [insortMeta]
  | cons y ys ih =>
    intro hl hne
    have hy : ∀ b ∈ ys, keyLt (mkey y) (mkey b) = true :=
      fun b hb => List.rel_of_pairwise_cons hl hb
    have hys := hl.of_cons
    simp only [insortMeta]
    split
    · rename_i hc
      refine List.Pairwise.cons ?_ hl
      intro b hb
      rcases List.mem_cons.mp hb with rfl | hb
      · exact hc
      · exact keyLt_trans hc (hy _ hb)
    · rename_i hc
      have hxm : keyLt (mkey y) (mkey m) = true := by
        cases hk : keyLt (mkey y) (mkey m)
        · exact absurd (keyLt_total hk (by simpa using hc))
            (hne y (List.mem_cons_self y ys))
        · rfl
      refine List.Pairwise.cons ?_ (ih hys (fun x hx => hne x (List.mem_cons_of_mem _ hx)))
      intro b hb
      rcases mem_insortMeta.mp hb with rfl | hb
      · exact hxm
      · exact hy _ hb

theorem insert_WFindex {idx : SegmentIndex} (cam : List Nat) (s e : Int)
    (loc : SegmentLocation) (h : WFindex idx) :
    WFindex (idx.insert cam s e loc).2 := by
  obtain ⟨hp, hid⟩ := h
  constructor
  · refine insortMeta_pairwise hp ?_
    intro x hx heq
    have : x.segment_id = idx.segment_counter := by
      have := congrArg (fun k => k.2.2) heq
      simpa [mkey] using this
    have := hid x hx
    omega
  · intro x hx
    rcases mem_insortMeta.mp hx with rfl | hx
    · simp [SegmentIndex.insert]
    · have := hid x hx
      simp only [SegmentIndex.insert]
      omega

theorem buildIndex_WFindex (ops : List (List Nat × Int × Int × SegmentLocation)) :
    WFindex (buildIndex ops) := by
  have : ∀ idx, WFindex idx →
      WFindex (ops.foldl (fun acc o => (acc.insert o.1 o.2.1 o.2.2.1 o.2.2.2).2) idx) := by
    induction ops with
    | nil => intro idx h; exact h
    | cons o os ih =>
      intro idx h
      exact ih _ (insert_WFindex o.1 o.2.1 o.2.2.1 o.2.2.2 h)
  exact this SegmentIndex.empty ⟨List.Pairwise.nil, by intro m hm; simp [SegmentIndex.empty] at hm⟩

/-- C9 (amended): `all_segments()` iterates the entries of any index built by
`insert` calls in strictly ascending `(camera_id, start_ts, segment_id)` key
order — the `BTreeMap` key order — not in insertion order (see the
counterexample, where the later-inserted entry is yielded first). -/
theorem C9_all_segments_key_order (ops : List (List Nat × Int × Int × SegmentLocation)) :
    (buildIndex ops).all_segments.Pairwise
      (fun a b => keyLt (mkey a) (mkey b) = true) :=
  (buildIndex_WFindex ops).1

/-- C9 counterexample: insert an entry for camera `[98]` and then one for
camera `[97]`; `all_segments` yields segment ids `[1, 0]` — the second-inserted
entry first — while insertion-order iteration would yield `[0, 1]`. -/
theorem C9_counterexample :
    ((buildIndex [([98], 0, 1, ⟨0, 0, 64, 61⟩), ([97], 0, 1, ⟨0, 0, 125, 61⟩)]).all_segments.map
        (fun m => m.segment_id)) = [1, 0] ∧
    (((buildIndex [([98], 0, 1, ⟨0, 0, 64, 61⟩), ([97], 0, 1, ⟨0, 0, 125, 61⟩)]).all_segments.map
        (fun m => m.segment_id)) ≠ [0, 1]) := by
  decide

end OasisNvr

namespace OasisNvr

theorem keyLt_to_tsIdLt {a b : SegmentMeta} (hc : a.camera_id = b.camera_id)
    (h : keyLt (mkey a) (mkey b) = true) : tsIdLt a b := by
  simp only [keyLt, mkey, Bool.or_eq_true, Bool.and_eq_true, decide_eq_true_eq,
    beq_iff_eq] at h
  rcases h with h | ⟨_, h⟩
  · rw [hc, bytesLt_irrefl] at h
    exact absurd h (by simp)
  · rcases h with h | ⟨h1, h2⟩
    · exact Or.inl h
    · exact Or.inr ⟨h1, h2⟩

/-- C5: `segments_in_range(camera_id, from, to)` returns exactly the entries of
that camera with `start_ts < to` and `end_ts > from`, in ascending
`(start_ts, segment_id)` order, for every index built by `insert` calls; and in
the three-adjacent-segments scenario `[t0,t1), [t1,t2), [t2,t3)` (t = 0,1,2,3)
the query over `(t1, t2)` returns exactly the middle segment — the segment
ending at `from` and the one starting at `to` are excluded. -/
theorem C5_segments_in_range_semantics :
    (∀ (ops : List (List Nat × Int × Int × SegmentLocation)) (cam : List Nat)
        (t1 t2 : Int),
      (∀ m, m ∈ (buildIndex ops).segments_in_range cam t1 t2 ↔
        (m ∈ (buildIndex ops).all_segments ∧ m.camera_id = cam ∧
          m.start_ts < t2 ∧ m.end_ts > t1)) ∧
      ((buildIndex ops).segments_in_range cam t1 t2).Pairwise tsIdLt) ∧
    (((buildIndex [([99], 0, 1, ⟨0, 0, 64, 49⟩), ([99], 1, 2, ⟨0, 0, 113, 49⟩),
        ([99], 2, 3, ⟨0, 0, 162, 49⟩)]).segments_in_range [99] 1 2).map
      (fun m => (m.segment_id, m.start_ts, m.end_ts)) = [(1, 1, 2)]) := by
  constructor
  · intro ops cam t1 t2
    constructor
    · intro m
      simp only [SegmentIndex.segments_in_range, SegmentIndex.all_segments,
        List.mem_filter, Bool.and_eq_true, decide_eq_true_eq, beq_iff_eq, gt_iff_lt]
      tauto
    · have hp := (buildIndex_WFindex ops).1
      have hf : ((buildIndex ops).segments_in_range cam t1 t2).Pairwise
          (fun a b => keyLt (mkey a) (mkey b) = true) :=
        hp.filter _
      refine List.Pairwise.imp_of_mem ?_ hf
      intro a b ha hb hk
      have hca : a.camera_id = cam := by
        have := (List.mem_filter.mp ha).2
        simp only [Bool.and_eq_true, beq_iff_eq] at this
        exact this.1.1
      have hcb : b.camera_id = cam := by
        have := (List.mem_filter.mp hb).2
        simp only [Bool.and_eq_true, beq_iff_eq] at this
        exact this.1.1
      exact keyLt_to_tsIdLt (hca.trans hcb.symm) hk
  · decide

end OasisNvr

namespace OasisNvr

theorem snd_mem_of_mem_enum {α : Type} {l : List α} {i : Nat} {x : α}
    (h : (i, x) ∈ l.enum) : x ∈ l :=
  List.getElem?_mem (List.mk_mem_enum_iff_getElem?.mp h)

theorem scanLoop_step (fuel : Nat) (file : List Nat) (pool_idx pool_id limit offset : Nat) :
    scanLoop (fuel + 1) file pool_idx pool_id limit offset
      = if offset + 40 ≤ limit then
          if readAt file offset 4 = RECORD_MAGIC then
            if offset + (40 + readU32 (readAt file (offset + 36) 4)) > limit then []
            else ⟨trimTrailingZeros (readAt file (offset + 4) 16),
                  readI64 (readAt file (offset + 20) 8),
                  readI64 (readAt file (offset + 28) 8),
                  pool_idx, pool_id, offset,
                  40 + readU32 (readAt file (offset + 36) 4)⟩
              :: scanLoop fuel file pool_idx pool_id limit
                  (offset + (40 + readU32 (readAt file (offset + 36) 4)))
          else []
        else [] := rfl

theorem scanLoop_sum_le : ∀ (fuel : Nat) (file : List Nat) (pi pid limit offset : Nat),
    ((scanLoop fuel file pi pid limit offset).map (fun r => r.record_size)).sum
      ≤ limit - offset := by
  intro fuel
  induction fuel with
  | zero => intro file pi pid limit offset; simp [scanLoop]
  | succ fuel ih =>
    intro file pi pid limit offset
    rw [scanLoop_step]
    split
    · split
      · split
        · simp
        · rename_i h40 _ hover
          have hrec := ih file pi pid limit (offset + (40 + readU32 (readAt file (offset + 36) 4)))
          simp only [List.map_cons, List.sum_cons]
          omega
      · simp
    · simp

theorem openFresh_WFbounds {cap n : Nat} (now : Int) (hn : 0 < n) :
    WFbounds (openFresh cap n now) := by
  refine ⟨openFresh_WFpool now hn, ?_⟩
  intro s hs
  simp only [openFresh, writePoolHeader] at hs
  rcases List.mem_or_eq_of_mem_set hs with h1 | h1
  · obtain ⟨i, _, rfl⟩ := List.mem_map.mp h1
    exact Nat.zero_le _
  · subst h1
    have h0 : (0 : Nat) < ((List.range n).map
        (fun i => (⟨i, 0, List.replicate (64 + cap) 0⟩ : PoolSlot))).length := by
      simpa using hn
    obtain ⟨i, _, heq⟩ := List.mem_map.mp (getD_mem (default : PoolSlot) h0)
    simp only
    rw [← heq]
    exact Nat.zero_le _

theorem openPool_WFbounds (capacity : Nat) (files : List (Option (List Nat)))
    (now : Int) (hlen : 0 < files.length)
    (hf : ∀ g, some g ∈ files → g.length = 64 + capacity) :
    WFbounds (openPool capacity files now) := by
  have hLlen : (files.enum.map (fun x => openSlot capacity x.1 x.2)).length
      = files.length := by simp
  have hLok : ∀ s ∈ files.enum.map (fun x => openSlot capacity x.1 x.2),
      s.file.length = 64 + capacity ∧ s.bytes_used ≤ capacity := by
    intro s hs
    obtain ⟨x, hx, rfl⟩ := List.mem_map.mp hs
    obtain ⟨i, f⟩ := x
    cases f with
    | none => simp [openSlot]
    | some g =>
      have hgl : g.length = 64 + capacity := hf g (snd_mem_of_mem_enum hx)
      constructor
      · simpa [openSlot] using hgl
      · simp only [openSlot]
        have hs := scanLoop_sum_le (64 + capacity) g i (read_pool_header g).1
          (64 + capacity) 64
        rw [scan_records]
        omega
  have hwlt : (if files.any Option.isSome then (bestAux 0 files (0, 0)).1 else 0)
      < files.length := by
    split
    · rcases bestAux_exists files 0 (0, 0) with hacc | ⟨j, g, hj, _, h1, _⟩
      · rw [hacc]
        exact hlen
      · rw [h1]
        omega
    · exact hlen
  by_cases hany : files.any Option.isSome
  · have hop : openPool capacity files now
        = ⟨capacity, files.enum.map (fun x => openSlot capacity x.1 x.2),
           (bestAux 0 files (0, 0)).1⟩ := by
      simp [openPool, hany]
    rw [hop]
    refine ⟨⟨?_, ?_⟩, ?_⟩
    · simp only [hLlen]
      simpa [hany] using hwlt
    · intro s hs
      exact (hLok s hs).1
    · intro s hs
      exact (hLok s hs).2
  · have hop : openPool capacity files now
        = writePoolHeader ⟨capacity, files.enum.map (fun x => openSlot capacity x.1 x.2), 0⟩
            0 now := by
      simp [openPool, hany]
    rw [hop]
    have h0L : (0 : Nat) < (files.enum.map (fun x => openSlot capacity x.1 x.2)).length := by
      omega
    have hs0 := hLok _ (getD_mem (default : PoolSlot) h0L)
    constructor
    constructor
    · simpa [writePoolHeader] using (by omega : (0:Nat) < files.length)
    · intro s hs
      simp only [writePoolHeader] at hs
      rcases List.mem_or_eq_of_mem_set hs with h1 | h1
      · exact (hLok s h1).1
      · subst h1
        simp only
        rw [writeAt_length (by rw [hs0.1, poolHeaderBytes_length]; omega)]
        exact hs0.1
    · intro s hs
      simp only [writePoolHeader] at hs
      rcases List.mem_or_eq_of_mem_set hs with h1 | h1
      · exact (hLok s h1).2
      · subst h1
        exact hs0.2

/-- C10: Implicit in-bounds invariant.  A fresh open, an open over existing
pre-allocated files, every successful append and every rotation preserve
`bytes_used ≤ pool_capacity` on all slots (and the pre-allocated file length
`64 + pool_capacity`); and a successful append returns a location with
`record_offset ≥ 64` and `record_offset + record_size ≤ 64 + pool_capacity`,
so no record overlaps the 64-byte pool header or extends past the
pre-allocated file length. -/
theorem C10_in_bounds_invariant :
    (∀ (cap n : Nat) (now : Int), 0 < n → WFbounds (openFresh cap n now)) ∧
    (∀ (capacity : Nat) (files : List (Option (List Nat))) (now : Int),
      0 < files.length → (∀ g, some g ∈ files → g.length = 64 + capacity) →
      WFbounds (openPool capacity files now)) ∧
    (∀ (p : ChunkPool) (cam : List Nat) (s e : Int) (data : List Nat) (now : Int),
      WFbounds p → 40 + data.length ≤ p.pool_capacity →
      ∃ loc p', append p cam s e data now = (some loc, p') ∧
        64 ≤ loc.record_offset ∧
        loc.record_offset + loc.record_size ≤ 64 + p.pool_capacity ∧
        WFbounds p') ∧
    (∀ (p : ChunkPool) (now : Int), WFbounds p → WFbounds (rotate p now)) := by
  refine ⟨fun cap n now hn => openFresh_WFbounds now hn,
    fun capacity files now hlen hf => openPool_WFbounds capacity files now hlen hf,
    ?_, fun p now hb => rotate_WFbounds now hb⟩
  intro p cam s e data now hb hfit
  obtain ⟨loc, p', heq, _, _, h64, hbound, _, hwb⟩ := append_ok cam s e data now hb.1 hfit
  exact ⟨loc, p', heq, h64, hbound, hwb hb⟩

/-- Witness for C10 at concrete inputs: fresh 2-slot pool of capacity 100, a
re-open of one zero-filled 164-byte file, a fitting 21-byte append, and one
rotation. -/
theorem C10_in_bounds_invariant_witness :
    WFbounds (openFresh 100 2 0) ∧
    WFbounds (openPool 100 [some (List.replicate 164 0)] 0) ∧
    (∃ loc p', append (openFresh 100 2 0) [97] 0 1 (List.replicate 21 7) 0 = (some loc, p') ∧
      64 ≤ loc.record_offset ∧
      loc.record_offset + loc.record_size ≤ 64 + (openFresh 100 2 0).pool_capacity ∧
      WFbounds p') ∧
    WFbounds (rotate (openFresh 100 2 0) 0) :=
  ⟨C10_in_bounds_invariant.1 100 2 0 (by norm_num),
   C10_in_bounds_invariant.2.1 100 [some (List.replicate 164 0)] 0 (by decide)
     (by
       intro g hg
       have h := List.mem_singleton.mp hg
       have h2 : g = List.replicate 164 0 := by injection h
       subst h2
       simp),
   C10_in_bounds_invariant.2.2.1 (openFresh 100 2 0) [97] 0 1 (List.replicate 21 7) 0
     (C10_in_bounds_invariant.1 100 2 0 (by norm_num)) (by decide),
   C10_in_bounds_invariant.2.2.2 (openFresh 100 2 0) 0
     (C10_in_bounds_invariant.1 100 2 0 (by norm_num))⟩

end OasisNvr

namespace OasisNvr

theorem readU32_u32le {n : Nat} (h : n < 4294967296) : readU32 (u32le n) = n := by
  simp only [readU32, u32le, List.getD_cons_zero, List.getD_cons_succ]
  omega

theorem readU64_u64le {n : Nat} (h : n < 18446744073709551616) : readU64 (u64le n) = n := by
  simp only [readU64, u64le, List.getD_cons_zero, List.getD_cons_succ]
  omega

theorem readI64_i64le {z : Int} (h1 : -9223372036854775808 ≤ z)
    (h2 : z < 9223372036854775808) : readI64 (i64le z) = z := by
  have hemod : z.emod 18446744073709551616 = z ∨
      z.emod 18446744073709551616 = z + 18446744073709551616 := by
    rcases le_or_lt 0 z with hz | hz
    · exact Or.inl (Int.emod_eq_of_lt hz (by omega))
    · refine Or.inr ?_
      have hr : (z + 18446744073709551616 * 1).emod 18446744073709551616
          = z.emod 18446744073709551616 := @Int.add_mul_emod_self_left z _ 1
      have hr2 : (z + 18446744073709551616).emod 18446744073709551616
          = z.emod 18446744073709551616 := by simpa using hr
      rw [← hr2]
      exact Int.emod_eq_of_lt (by omega) (by omega)
  have hnn : (0 : Int) ≤ z.emod 18446744073709551616 :=
    Int.emod_nonneg z (by norm_num)
  have hk : ((z.emod 18446744073709551616).toNat : Int) = z.emod 18446744073709551616 :=
    Int.toNat_of_nonneg hnn
  have hlt : z.emod 18446744073709551616 < 18446744073709551616 :=
    Int.emod_lt_of_pos z (by norm_num)
  have hklt : (z.emod 18446744073709551616).toNat < 18446744073709551616 := by
    have hc : ((z.emod 18446744073709551616).toNat : Int) < 18446744073709551616 := by
      rw [hk]
      exact hlt
    exact_mod_cast hc
  rw [readI64, i64le, readU64_u64le hklt]
  split
  · rename_i hsmall
    have hs : ((z.emod 18446744073709551616).toNat : Int) < 9223372036854775808 := by
      exact_mod_cast hsmall
    rw [hk] at hs ⊢
    rcases hemod with h | h <;> omega
  · rename_i hbig
    push_neg at hbig
    have hs : (9223372036854775808 : Int) ≤ ((z.emod 18446744073709551616).toNat : Int) := by
      exact_mod_cast hbig
    rw [hk] at hs ⊢
    rcases hemod with h | h <;> omega

theorem dropWhile_replicate_zero (l : List Nat) :
    ∀ k, ((List.replicate k 0 ++ l).dropWhile (fun b => b == 0))
      = l.dropWhile (fun b => b == 0) := by
  intro k
  induction k with
  | zero => simp
  | succ k ih => simpa using ih

theorem trim_encodeCam {cam : List Nat} (h1 : cam.length ≤ 16)
    (h2 : cam.getLast? ≠ some 0) : trimTrailingZeros (encodeCam cam) = cam := by
  unfold trimTrailingZeros encodeCam
  rw [List.take_of_length_le h1, List.reverse_append, List.reverse_replicate,
    dropWhile_replicate_zero]
  have hd : cam.reverse.dropWhile (fun b => b == 0) = cam.reverse := by
    cases hrev : cam.reverse with
    | nil => rfl
    | cons a t =>
      have ha : a ≠ 0 := by
        have hh : cam.getLast? = some a := by
          rw [← List.head?_reverse, hrev]
          rfl
        intro h0
        rw [h0] at hh
        exact h2 hh
      rw [List.dropWhile_cons_of_neg (by simpa using ha)]
  rw [hd, List.reverse_reverse]

theorem RECORD_MAGIC_length : RECORD_MAGIC.length = 4 := rfl

theorem record_take4 (cam : List Nat) (s e : Int) (data tail : List Nat) :
    (recordBytes cam s e data ++ tail).take 4 = RECORD_MAGIC := by
  have h : recordBytes cam s e data ++ tail
      = RECORD_MAGIC ++ (encodeCam cam ++ (i64le s ++ (i64le e
          ++ (u32le data.length ++ (data ++ tail))))) := by
    simp [recordBytes, recordHeaderBytes, List.append_assoc]
  rw [h, List.take_left' RECORD_MAGIC_length]

theorem record_cam (cam : List Nat) (s e : Int) (data tail : List Nat) :
    ((recordBytes cam s e data ++ tail).drop 4).take 16 = encodeCam cam := by
  have h : recordBytes cam s e data ++ tail
      = RECORD_MAGIC ++ (encodeCam cam ++ (i64le s ++ (i64le e
          ++ (u32le data.length ++ (data ++ tail))))) := by
    simp [recordBytes, recordHeaderBytes, List.append_assoc]
  rw [h, List.drop_left' RECORD_MAGIC_length,
    List.take_append_of_le_length (encodeCam_length cam).ge,
    List.take_of_length_le (encodeCam_length cam).le]

theorem record_start (cam : List Nat) (s e : Int) (data tail : List Nat) :
    ((recordBytes cam s e data ++ tail).drop 20).take 8 = i64le s := by
  have h : recordBytes cam s e data ++ tail
      = (RECORD_MAGIC ++ encodeCam cam) ++ (i64le s ++ (i64le e
          ++ (u32le data.length ++ (data ++ tail)))) := by
    simp [recordBytes, recordHeaderBytes, List.append_assoc]
  have h20 : (RECORD_MAGIC ++ encodeCam cam).length = 20 := by
    simp [RECORD_MAGIC, encodeCam_length]
  rw [h, List.drop_left' h20,
    List.take_append_of_le_length (i64le_length s).ge,
    List.take_of_length_le (i64le_length s).le]

theorem record_end (cam : List Nat) (s e : Int) (data tail : List Nat) :
    ((recordBytes cam s e data ++ tail).drop 28).take 8 = i64le e := by
  have h : recordBytes cam s e data ++ tail
      = ((RECORD_MAGIC ++ encodeCam cam) ++ i64le s) ++ (i64le e
          ++ (u32le data.length ++ (data ++ tail))) := by
    simp [recordBytes, recordHeaderBytes, List.append_assoc]
  have h28 : ((RECORD_MAGIC ++ encodeCam cam) ++ i64le s).length = 28 := by
    simp [RECORD_MAGIC, encodeCam_length, i64le_length]
  rw [h, List.drop_left' h28,
    List.take_append_of_le_length (i64le_length e).ge,
    List.take_of_length_le (i64le_length e).le]

theorem record_dl (cam : List Nat) (s e : Int) (data tail : List Nat) :
    ((recordBytes cam s e data ++ tail).drop 36).take 4 = u32le data.length := by
  have h : recordBytes cam s e data ++ tail
      = (((RECORD_MAGIC ++ encodeCam cam) ++ i64le s) ++ i64le e)
          ++ (u32le data.length ++ (data ++ tail)) := by
    simp [recordBytes, recordHeaderBytes, List.append_assoc]
  have h36 : ((((RECORD_MAGIC ++ encodeCam cam) ++ i64le s) ++ i64le e)).length = 36 := by
    simp [RECORD_MAGIC, encodeCam_length, i64le_length]
  rw [h, List.drop_left' h36,
    List.take_append_of_le_length (u32le_length data.length).ge,
    List.take_of_length_le (u32le_length data.length).le]

theorem record_rest (cam : List Nat) (s e : Int) (data tail : List Nat) :
    (recordBytes cam s e data ++ tail).drop (40 + data.length) = tail :=
  List.drop_left' (recordBytes_length cam s e data)

theorem readAt_shift (file : List Nat) (offset k m : Nat) :
    readAt file (offset + k) m = ((file.drop offset).drop k).take m := by
  rw [readAt, List.drop_drop]

end OasisNvr

namespace OasisNvr

theorem totalSize_cons (r : WriteRequest) (rs : List WriteRequest) :
    totalSize (r :: rs) = (40 + r.data.length) + totalSize rs := by
  simp [totalSize]

theorem encodeRecs_cons (r : WriteRequest) (rs : List WriteRequest) :
    encodeRecs (r :: rs)
      = recordBytes r.camera_id r.start_ts r.end_ts r.data ++ encodeRecs rs := by
  simp [encodeRecs]

theorem encodeRecs_length : ∀ (rs : List WriteRequest), (encodeRecs rs).length = totalSize rs := by
  intro rs
  induction rs with
  | nil => rfl
  | cons r rs ih =>
    rw [encodeRecs_cons, totalSize_cons, List.length_append, recordBytes_length, ih]

theorem scanLoop_chain : ∀ (reqs : List WriteRequest) (file : List Nat)
    (pi pid offset fuel z : Nat),
    (∀ r ∈ reqs, reqOk r) →
    file.drop offset = encodeRecs reqs ++ List.replicate z 0 →
    offset + totalSize reqs + z = file.length →
    file.length - offset ≤ fuel →
    scanLoop fuel file pi pid file.length offset = expectedScan pi pid reqs offset := by
  intro reqs
  induction reqs with
  | nil =>
    intro file pi pid offset fuel z hok hdrop htot hfuel
    simp only [encodeRecs, List.map_nil, List.flatten_nil, List.nil_append] at hdrop
    have hz : offset + z = file.length := by
      simpa [totalSize] using htot
    cases fuel with
    | zero => rfl
    | succ fuel =>
      rw [scanLoop_step]
      by_cases h40 : offset + 40 ≤ file.length
      · rw [if_pos h40]
        have hmag : readAt file offset 4 = List.replicate 4 0 := by
          rw [readAt, hdrop, List.take_replicate, Nat.min_eq_left (by omega)]
        rw [if_neg (by rw [hmag]; decide)]
        rfl
      · rw [if_neg h40]
        rfl
  | cons r rest ih =>
    intro file pi pid offset fuel z hok hdrop htot hfuel
    obtain ⟨⟨hc16, hcl⟩, hdl32, hs1, hs2, he1, he2⟩ := hok r (List.mem_cons_self r rest)
    rw [encodeRecs_cons, List.append_assoc] at hdrop
    rw [totalSize_cons] at htot
    have h40 : offset + 40 ≤ file.length := by omega
    cases fuel with
    | zero => exact absurd hfuel (by omega)
    | succ fuel =>
      rw [scanLoop_step, if_pos h40]
      have hmag : readAt file offset 4 = RECORD_MAGIC := by
        rw [readAt, hdrop]
        exact record_take4 _ _ _ _ _
      rw [if_pos hmag]
      have hdlv : readU32 (readAt file (offset + 36) 4) = r.data.length := by
        rw [readAt_shift, hdrop, record_dl]
        exact readU32_u32le hdl32
      rw [hdlv]
      rw [if_neg (by omega : ¬ (offset + (40 + r.data.length) > file.length))]
      have hcam : trimTrailingZeros (readAt file (offset + 4) 16) = r.camera_id := by
        rw [readAt_shift, hdrop, record_cam]
        exact trim_encodeCam hc16 hcl
      have hst : readI64 (readAt file (offset + 20) 8) = r.start_ts := by
        rw [readAt_shift, hdrop, record_start]
        exact readI64_i64le hs1 hs2
      have het : readI64 (readAt file (offset + 28) 8) = r.end_ts := by
        rw [readAt_shift, hdrop, record_end]
        exact readI64_i64le he1 he2
      rw [hcam, hst, het]
      have hdrop' : file.drop (offset + (40 + r.data.length))
          = encodeRecs rest ++ List.replicate z 0 := by
        have h1 : (file.drop offset).drop (40 + r.data.length)
            = file.drop (offset + (40 + r.data.length)) := by
          rw [List.drop_drop]
        rw [← h1, hdrop, record_rest]
      rw [ih file pi pid (offset + (40 + r.data.length)) fuel z
        (fun x hx => hok x (List.mem_cons_of_mem _ hx)) hdrop' (by omega) (by omega)]
      rfl

end OasisNvr

namespace OasisNvr

theorem totalSize_append (a b : List WriteRequest) :
    totalSize (a ++ b) = totalSize a + totalSize b := by
  simp [totalSize]

theorem encodeRecs_append (a b : List WriteRequest) :
    encodeRecs (a ++ b) = encodeRecs a ++ encodeRecs b := by
  simp [encodeRecs]

theorem take_writeAt {f bs : List Nat} {off k : Nat} (hk : k ≤ off)
    (hoff : off ≤ f.length) : (writeAt f off bs).take k = f.take k := by
  rw [writeAt, List.append_assoc] at *
  rw [List.take_append_of_le_length (by simp; omega), List.take_take,
    Nat.min_eq_left hk]

theorem writeAt_region {pre mid suf bs : List Nat} {off : Nat}
    (hpre : pre.length = 64) (hoff : off = 64 + mid.length) :
    writeAt (pre ++ (mid ++ suf)) off bs
      = pre ++ (mid ++ (bs ++ suf.drop bs.length)) := by
  subst hoff
  rw [writeAt]
  have h1 : (pre ++ (mid ++ suf)).take (64 + mid.length) = pre ++ mid := by
    rw [← hpre, List.take_append]
    rw [List.take_append_of_le_length (Nat.le_refl _), List.take_of_length_le (Nat.le_refl _)]
  have h2 : (pre ++ (mid ++ suf)).drop (64 + mid.length + bs.length) = suf.drop bs.length := by
    have he : 64 + mid.length + bs.length = pre.length + (mid.length + bs.length) := by omega
    rw [he, List.drop_append]
    have he2 : mid.length + bs.length = mid.length + bs.length := rfl
    rw [List.drop_append]
  rw [h1, h2]
  simp [List.append_assoc]

theorem rangeMap_getD (cap : Nat) {n j : Nat} (hj : j < n) :
    (((List.range n).map
      (fun i => (⟨i, 0, List.replicate (64 + cap) 0⟩ : PoolSlot))).getD j default)
      = ⟨j, 0, List.replicate (64 + cap) 0⟩ := by
  have hjl : j < ((List.range n).map
      (fun i => (⟨i, 0, List.replicate (64 + cap) 0⟩ : PoolSlot))).length := by
    simpa using hj
  rw [List.getD_eq_getElem _ _ hjl, List.getElem_map, List.getElem_range]

theorem slot0_openFresh {cap n : Nat} (now : Int) (hn : 0 < n) :
    Slot0State cap n now [] (openFresh cap n now) := by
  have hL0 : (0 : Nat) < ((List.range n).map
      (fun i => (⟨i, 0, List.replicate (64 + cap) 0⟩ : PoolSlot))).length := by
    simpa using hn
  have h0 := rangeMap_getD cap hn
  have hgd : (openFresh cap n now).slots.getD 0 default
      = ⟨0, 0, writeAt (List.replicate (64 + cap) 0) 0 (poolHeaderBytes 0 now)⟩ := by
    simp only [openFresh, writePoolHeader]
    rw [getD_set_self _ _ hL0, h0]
  have hwr : writeAt (List.replicate (64 + cap) 0) 0 (poolHeaderBytes 0 now)
      = poolHeaderBytes 0 now ++ (List.replicate (64 + cap) 0).drop 64 := by
    simp [writeAt, poolHeaderBytes_length]
  have hdrop64 : (List.replicate (64 + cap) 0).drop 64 = List.replicate cap (0 : Nat) := by
    rw [List.drop_replicate]
    exact congrArg (fun t => List.replicate t (0 : Nat)) (by omega)
  refine ⟨rfl, rfl, by simp [openFresh, writePoolHeader], ?_, ?_, ?_, ?_, ?_, ?_⟩
  · rw [hgd]
  · rw [hgd]
    rfl
  · rw [hgd]
    simp only
    rw [hwr, List.take_left' (poolHeaderBytes_length 0 now)]
  · rw [hgd]
    simp only
    rw [hwr, List.drop_left' (poolHeaderBytes_length 0 now), hdrop64]
    simp [encodeRecs, totalSize]
  · rw [hgd]
    simp only
    rw [hwr]
    simp [poolHeaderBytes_length]
  · intro j hj0 hjn
    simp only [openFresh, writePoolHeader]
    rw [getD_set_ne _ _ (by omega), rangeMap_getD cap hjn]

theorem slot0_step {cap n : Nat} {now : Int} {done : List WriteRequest}
    {p : ChunkPool} (r : WriteRequest)
    (hI : Slot0State cap n now done p)
    (hfit : totalSize done + (40 + r.data.length) ≤ cap) :
    Slot0State cap n now (done ++ [r])
      (append p r.camera_id r.start_ts r.end_ts r.data 0).2 := by
  obtain ⟨hA, hB, hC, hD, hE, hF, hG, hH, hI9⟩ := hI
  have hpos : 0 < p.slots.length := by
    by_contra hcon
    push_neg at hcon
    have hnil : p.slots = [] := List.length_eq_zero.mp (by omega)
    rw [hnil] at hH
    have hd : (([] : List PoolSlot).getD 0 default).file.length = 0 := rfl
    omega
  have hnot : ¬ (40 + r.data.length > p.pool_capacity) := by
    rw [hA]
    omega
  have hguard : ¬ ((p.slots.getD p.write_idx default).bytes_used + (40 + r.data.length)
      > p.pool_capacity) := by
    rw [hA, hB, hE]
    omega
  have happ : append p r.camera_id r.start_ts r.end_ts r.data 0
      = (some ⟨p.write_idx, (p.slots.getD p.write_idx default).pool_id,
          64 + (p.slots.getD p.write_idx default).bytes_used, 40 + r.data.length⟩,
         { p with slots := p.slots.set p.write_idx (PoolSlot.mk ((p.slots.getD p.write_idx default)).pool_id ((p.slots.getD p.write_idx default).bytes_used + (40 + r.data.length)) (writeAt ((p.slots.getD p.write_idx default)).file (64 + ((p.slots.getD p.write_idx default)).bytes_used) (recordBytes r.camera_id r.start_ts r.end_ts r.data))) }) := by
    simp only [append]
    rw [if_neg hnot, if_neg hguard]
  rw [happ]
  simp only [hB]
  have hfile : (p.slots.getD 0 default).file
      = poolHeaderBytes 0 now
        ++ (encodeRecs done ++ List.replicate (cap - totalSize done) 0) := by
    conv_lhs => rw [← List.take_append_drop 64 (p.slots.getD 0 default).file]
    rw [hF, hG]
  have hlen2 : (64 + (p.slots.getD 0 default).bytes_used) + (40 + r.data.length)
      ≤ (p.slots.getD 0 default).file.length := by
    rw [hH, hE]
    omega
  refine ⟨hA, rfl, by simpa using hC, ?_, ?_, ?_, ?_, ?_, ?_⟩
  · rw [getD_set_self _ _ hpos]
    exact hD
  · rw [getD_set_self _ _ hpos]
    simp only
    rw [hE, totalSize_append]
    have hk : totalSize [r] = 40 + r.data.length := by simp [totalSize]
    omega
  · rw [getD_set_self _ _ hpos]
    simp only
    rw [take_writeAt (by omega) (by rw [hH, hE]; omega)]
    exact hF
  · rw [getD_set_self _ _ hpos]
    simp only
    rw [hE, hfile,
      writeAt_region (poolHeaderBytes_length 0 now) (by rw [encodeRecs_length]),
      List.drop_left' (poolHeaderBytes_length 0 now)]
    rw [encodeRecs_append, List.append_assoc]
    have hsingle : encodeRecs [r]
        = recordBytes r.camera_id r.start_ts r.end_ts r.data := by
      simp [encodeRecs]
    rw [hsingle, recordBytes_length, List.drop_replicate]
    have hk : totalSize [r] = 40 + r.data.length := by simp [totalSize]
    have hsub : cap - totalSize done - (40 + r.data.length)
        = cap - totalSize (done ++ [r]) := by
      rw [totalSize_append, hk]
      omega
    rw [hsub]
  · rw [getD_set_self _ _ hpos]
    simp only
    rw [writeAt_length (by rw [recordBytes_length]; exact hlen2)]
    exact hH
  · intro j hj0 hjn
    rw [getD_set_ne _ _ (by omega)]
    exact hI9 j hj0 hjn

theorem slot0_run {cap n : Nat} {now : Int} :
    ∀ (rest done : List WriteRequest) (p : ChunkPool),
      Slot0State cap n now done p →
      totalSize done + totalSize rest ≤ cap →
      Slot0State cap n now (done ++ rest) (runAppends p rest) := by
  intro rest
  induction rest with
  | nil =>
    intro done p h _
    simpa using h
  | cons r rs ih =>
    intro done p h hfit
    rw [totalSize_cons] at hfit
    have hstep := slot0_step r h (by omega)
    have hrec := ih (done ++ [r]) _ hstep
      (by
        rw [totalSize_append]
        have hk : totalSize [r] = 40 + r.data.length := by simp [totalSize]
        omega)
    have heq : (done ++ [r]) ++ rs = done ++ (r :: rs) := by simp
    rw [heq] at hrec
    exact hrec

end OasisNvr

namespace OasisNvr

theorem POOL_MAGIC_length : POOL_MAGIC.length = 8 := rfl

theorem mapSome_getD {α : Type} [Inhabited α] {l : List α} {j : Nat} (hj : j < l.length) :
    (l.map some).getD j none = some (l.getD j default) := by
  have hjl : j < (l.map some).length := by simpa using hj
  rw [List.getD_eq_getElem _ _ hjl, List.getElem_map, List.getD_eq_getElem _ _ hj]

theorem read_pool_header_take64 {f : List Nat} {pid : Nat} {c : Int}
    (h : f.take 64 = poolHeaderBytes pid c) (hpid : pid < 18446744073709551616) :
    (read_pool_header f).1 = pid := by
  have hshape : f = POOL_MAGIC
      ++ (u64le pid ++ ((i64le c ++ List.replicate 40 0) ++ f.drop 64)) := by
    conv_lhs => rw [← List.take_append_drop 64 f]
    rw [h]
    simp [poolHeaderBytes, List.append_assoc]
  have hmag : readAt f 0 8 = POOL_MAGIC := by
    rw [readAt, List.drop_zero]
    conv_lhs => rw [hshape]
    rw [List.take_left' POOL_MAGIC_length]
  have hpidr : readAt f 8 8 = u64le pid := by
    rw [readAt]
    conv_lhs => rw [hshape]
    rw [List.drop_left' POOL_MAGIC_length,
      List.take_append_of_le_length (u64le_length pid).ge,
      List.take_of_length_le (u64le_length pid).le]
  rw [read_pool_header, if_pos hmag]
  simp only
  rw [hpidr, readU64_u64le hpid]

theorem read_pool_header_replicate {m : Nat} (hm : 8 ≤ m) :
    read_pool_header (List.replicate m 0) = (0, 0) := by
  have hmr : readAt (List.replicate m 0) 0 8 = List.replicate 8 (0 : Nat) := by
    rw [readAt, List.drop_replicate, List.take_replicate]
    exact congrArg (fun t => List.replicate t (0 : Nat)) (by omega)
  rw [read_pool_header, hmr, if_neg (by decide)]

theorem scan_records_replicate (i pid cap : Nat) :
    scan_records (List.replicate (64 + cap) 0) i pid cap = [] := by
  have h := scanLoop_chain [] (List.replicate (64 + cap) 0) i pid 64 (64 + cap) cap
    (by intro r hr; simp at hr)
    (by
      rw [List.drop_replicate]
      simp only [encodeRecs, List.map_nil, List.flatten_nil, List.nil_append]
      exact congrArg (fun t => List.replicate t (0 : Nat)) (by omega))
    (by simp [totalSize])
    (by simp)
  have hl : (List.replicate (64 + cap) (0 : Nat)).length = 64 + cap := by simp
  have h2 : scanLoop (64 + cap) (List.replicate (64 + cap) 0) i pid
      ((List.replicate (64 + cap) (0 : Nat)).length) 64 = [] := h.trans rfl
  rw [hl] at h2
  rw [scan_records]
  exact h2

theorem expectedScan_bound (pi pid : Nat) :
    ∀ (reqs : List WriteRequest) (off : Nat) (x : ScannedRecord),
      x ∈ expectedScan pi pid reqs off → off ≤ x.record_offset ∧ x.pool_id = pid := by
  intro reqs
  induction reqs with
  | nil => intro off x hx; simp [expectedScan] at hx
  | cons r rs ih =>
    intro off x hx
    rcases List.mem_cons.mp hx with rfl | hx
    · exact ⟨Nat.le_refl _, rfl⟩
    · have := ih (off + (40 + r.data.length)) x hx
      exact ⟨by omega, this.2⟩

theorem expectedScan_pairwise (pi pid : Nat) :
    ∀ (reqs : List WriteRequest) (off : Nat),
      (expectedScan pi pid reqs off).Pairwise (fun a b => recLe a b = true) := by
  intro reqs
  induction reqs with
  | nil => intro off; simp [expectedScan]
  | cons r rs ih =>
    intro off
    refine List.Pairwise.cons ?_ (ih (off + (40 + r.data.length)))
    intro b hb
    obtain ⟨hoff, hpid⟩ := expectedScan_bound pi pid rs (off + (40 + r.data.length)) b hb
    simp only [recLe, Bool.or_eq_true, Bool.and_eq_true, decide_eq_true_eq, beq_iff_eq]
    right
    exact ⟨hpid.symm, by omega⟩

theorem sortRecords_of_pairwise :
    ∀ {l : List ScannedRecord}, l.Pairwise (fun a b => recLe a b = true) →
      sortRecords l = l := by
  intro l
  induction l with
  | nil => intro _; rfl
  | cons a as ih =>
    intro h
    rw [sortRecords, ih h.of_cons]
    cases as with
    | nil => rfl
    | cons b bs =>
      have hab : recLe a b = true := List.rel_of_pairwise_cons h (List.mem_cons_self b bs)
      rw [insortRec, if_pos hab]

theorem expectedScan_map (pi pid : Nat) :
    ∀ (reqs : List WriteRequest) (off : Nat),
      (expectedScan pi pid reqs off).map (fun x => (x.camera_id, x.start_ts, x.end_ts))
        = reqs.map (fun r => (r.camera_id, r.start_ts, r.end_ts)) := by
  intro reqs
  induction reqs with
  | nil => intro off; rfl
  | cons r rs ih =>
    intro off
    simp only [expectedScan, List.map_cons, ih]

theorem scan_all_shape (p : ChunkPool) (E : List ScannedRecord)
    (hlen : 0 < p.slots.length)
    (h0 : scan_records (p.slots.getD 0 default).file 0
      (p.slots.getD 0 default).pool_id p.pool_capacity = E)
    (hrest : ∀ j, 0 < j → j < p.slots.length →
      scan_records (p.slots.getD j default).file j
        (p.slots.getD j default).pool_id p.pool_capacity = []) :
    scan_all_pools p = sortRecords E := by
  obtain ⟨s0, rest, hslots⟩ := List.exists_cons_of_ne_nil
    (List.length_pos.mp hlen)
  rw [scan_all_pools]
  congr 1
  rw [hslots, List.enum_cons, List.map_cons]
  have hs0 : p.slots.getD 0 default = s0 := by rw [hslots]; rfl
  rw [hs0] at h0
  have hflat : ((rest.enumFrom 1).map
      (fun x => scan_records x.2.file x.1 x.2.pool_id p.pool_capacity)).flatten = [] := by
    rw [List.flatten_eq_nil_iff]
    intro xs hxs
    obtain ⟨⟨j, s⟩, hmem, rfl⟩ := List.mem_map.mp hxs
    obtain ⟨hj1, hjg⟩ := List.mk_mem_enumFrom_iff_le_and_getElem?_sub.mp hmem
    have hjlt : j - 1 < rest.length := by
      rcases List.getElem?_eq_some_iff.mp hjg with ⟨hlt, _⟩
      exact hlt
    have hsj : p.slots.getD j default = s := by
      rcases Nat.exists_eq_add_of_le hj1 with ⟨k, hj⟩
      subst hj
      have hk : 1 + k - 1 = k := by omega
      rw [hk] at hjg
      rw [hslots, show 1 + k = k + 1 from by omega, List.getD_cons_succ,
        List.getD_eq_getElem?_getD, hjg]
      rfl
    have := hrest j (by omega) (by rw [hslots]; simp; omega)
    rw [hsj] at this
    simp only
    exact this
  simp only [List.flatten_cons, hflat, List.append_nil]
  exact h0

end OasisNvr

namespace OasisNvr

theorem filesOf_getD {p : ChunkPool} {j : Nat} (hj : j < p.slots.length) :
    (filesOf p).getD j none = some ((p.slots.getD j default).file) := by
  have hjl : j < (filesOf p).length := by simpa [filesOf] using hj
  rw [List.getD_eq_getElem _ _ hjl]
  simp only [filesOf, List.getElem_map]
  rw [List.getD_eq_getElem _ _ hj]

theorem openSlot_some_pool_id (cap j : Nat) (f : List Nat) :
    (openSlot cap j (some f)).pool_id = (read_pool_header f).1 := rfl

theorem openSlot_some_file (cap j : Nat) (f : List Nat) :
    (openSlot cap j (some f)).file = f := rfl

theorem scan_after_reopen {cap n : Nat} {now now2 : Int} {reqs : List WriteRequest}
    (hn : 0 < n) (hok : ∀ r ∈ reqs, reqOk r) (hfit : totalSize reqs ≤ cap) :
    scan_all_pools
      (openPool cap (filesOf (runAppends (openFresh cap n now) reqs)) now2)
      = expectedScan 0 0 reqs 64 := by
  have hInv : Slot0State cap n now reqs (runAppends (openFresh cap n now) reqs) := by
    have h := slot0_run reqs [] (openFresh cap n now) (slot0_openFresh now hn)
      (by simpa [totalSize] using hfit)
    simpa using h
  set P := runAppends (openFresh cap n now) reqs with hP
  obtain ⟨hA, hB, hC, hD, hE, hF, hG, hH, hI9⟩ := hInv
  have hPlen : 0 < P.slots.length := by omega
  have hfl : (filesOf P).length = n := by simp [filesOf, hC]
  have hany : (filesOf P).any Option.isSome = true := by
    rw [List.any_eq_true]
    exact ⟨some ((P.slots.getD 0 default).file),
      List.mem_map.mpr ⟨P.slots.getD 0 default, getD_mem _ hPlen, rfl⟩, rfl⟩
  have hreop : openPool cap (filesOf P) now2
      = ⟨cap, (filesOf P).enum.map (fun x => openSlot cap x.1 x.2),
         (bestAux 0 (filesOf P) (0, 0)).1⟩ := by
    simp [openPool, hany]
  have hslot : ∀ j, j < n →
      ((filesOf P).enum.map (fun x => openSlot cap x.1 x.2)).getD j default
        = openSlot cap j (some ((P.slots.getD j default).file)) := by
    intro j hj
    rw [openPool_slots_getD cap (filesOf P) j (by omega),
      filesOf_getD (by omega)]
  have hpid0 : (read_pool_header (P.slots.getD 0 default).file).1 = 0 :=
    read_pool_header_take64 hF (by norm_num)
  have hscan0 : scan_records (P.slots.getD 0 default).file 0 0 cap
      = expectedScan 0 0 reqs 64 := by
    have hchain := scanLoop_chain reqs (P.slots.getD 0 default).file 0 0 64 (64 + cap)
      (cap - totalSize reqs) hok hG (by rw [hH]; omega) (by rw [hH]; omega)
    rw [hH] at hchain
    rw [scan_records]
    exact hchain
  rw [hreop]
  have hlen2 : (0 : Nat) < (⟨cap, (filesOf P).enum.map (fun x => openSlot cap x.1 x.2),
      (bestAux 0 (filesOf P) (0, 0)).1⟩ : ChunkPool).slots.length := by
    simp only
    rw [List.length_map, List.enum_length, hfl]
    exact hn
  have hshape := scan_all_shape
    ⟨cap, (filesOf P).enum.map (fun x => openSlot cap x.1 x.2),
      (bestAux 0 (filesOf P) (0, 0)).1⟩
    (expectedScan 0 0 reqs 64) hlen2 ?_ ?_
  · rw [hshape, sortRecords_of_pairwise (expectedScan_pairwise 0 0 reqs 64)]
  · simp only
    rw [hslot 0 hn, openSlot_some_file, openSlot_some_pool_id, hpid0]
    exact hscan0
  · intro j hj0 hjn
    simp only at hjn ⊢
    rw [List.length_map, List.enum_length, hfl] at hjn
    rw [hslot j hjn, openSlot_some_file, openSlot_some_pool_id, hI9 j hj0 hjn]
    have hfr : ((⟨j, 0, List.replicate (64 + cap) 0⟩ : PoolSlot)).file
        = List.replicate (64 + cap) 0 := rfl
    rw [hfr, read_pool_header_replicate (by omega)]
    exact scan_records_replicate j 0 cap

end OasisNvr

namespace OasisNvr

/-- C7 (amended): `scan_all_pools` returns the concatenation of per-slot scans
sorted by `(pool_id, record_offset)`.  After a rotation-free run (all records
fit in slot 0) followed by drop and re-open, the scan returns exactly the
appended records with their metadata, in temporal append order.  In general
(with rotations) the order is NOT temporal append order and the scan may also
resurrect records of an overwritten generation (see the counterexample). -/
theorem C7_scan_all_temporal_order (cap n : Nat) (now now2 : Int)
    (reqs : List WriteRequest) (hn : 0 < n) (hok : ∀ r ∈ reqs, reqOk r)
    (hfit : totalSize reqs ≤ cap) :
    scan_all_pools (openPool cap (filesOf (runAppends (openFresh cap n now) reqs)) now2)
      = expectedScan 0 0 reqs 64 ∧
    (scan_all_pools (openPool cap (filesOf (runAppends (openFresh cap n now) reqs)) now2)).map
        (fun x => (x.camera_id, x.start_ts, x.end_ts))
      = reqs.map (fun r => (r.camera_id, r.start_ts, r.end_ts)) := by
  have h := @scan_after_reopen cap n now now2 reqs hn hok hfit
  exact ⟨h, by rw [h, expectedScan_map]⟩

/-- Witness for C7 (amended) at a concrete input: two fitting requests on a
fresh 2-slot pool of capacity 200, dropped and re-opened. -/
theorem C7_scan_all_temporal_order_witness :
    scan_all_pools (openPool 200 (filesOf (runAppends (openFresh 200 2 0)
        [⟨[97], 1, 2, List.replicate 5 9⟩, ⟨[98], 3, 4, List.replicate 6 8⟩])) 0)
      = expectedScan 0 0
          [⟨[97], 1, 2, List.replicate 5 9⟩, ⟨[98], 3, 4, List.replicate 6 8⟩] 64 ∧
    (scan_all_pools (openPool 200 (filesOf (runAppends (openFresh 200 2 0)
        [⟨[97], 1, 2, List.replicate 5 9⟩, ⟨[98], 3, 4, List.replicate 6 8⟩])) 0)).map
        (fun x => (x.camera_id, x.start_ts, x.end_ts))
      = ([⟨[97], 1, 2, List.replicate 5 9⟩, ⟨[98], 3, 4, List.replicate 6 8⟩]
          : List WriteRequest).map (fun r => (r.camera_id, r.start_ts, r.end_ts)) :=
  C7_scan_all_temporal_order 200 2 0 0
    [⟨[97], 1, 2, List.replicate 5 9⟩, ⟨[98], 3, 4, List.replicate 6 8⟩]
    (by norm_num)
    (by
      intro r hr
      simp only [List.mem_cons, List.not_mem_nil, or_false] at hr
      rcases hr with h | h <;> subst h <;>
        exact ⟨⟨by decide, by decide⟩, by decide, by decide, by decide,
          by decide, by decide⟩)
    (by decide)

/-- C7 counterexample: five appends (capacity 122, 2 slots, strictly
increasing start times 1..5) rotate twice; after re-open the scan returns
start times `[5, 2, 3, 4]` — it contains the overwritten-generation record
with start time 2 (whose slot was rotated into) and is not in temporal
append order. -/
theorem C7_counterexample :
    (scan_all_pools (openPool 122
        (filesOf (runAppends (openFresh 122 2 0) resurrectReqs)) 0)).map
        (fun r => r.start_ts) = [5, 2, 3, 4] ∧
    ¬ ((scan_all_pools (openPool 122
        (filesOf (runAppends (openFresh 122 2 0) resurrectReqs)) 0)).map
        (fun r => r.start_ts)).Pairwise (fun a b => a ≤ b) := by
  constructor
  · decide
  · intro h
    rw [show (scan_all_pools (openPool 122
        (filesOf (runAppends (openFresh 122 2 0) resurrectReqs)) 0)).map
        (fun r => r.start_ts) = [5, 2, 3, 4] from by decide] at h
    have := List.rel_of_pairwise_cons h (List.mem_cons_self 2 [3, 4])
    omega

theorem insortMeta_perm (m : SegmentMeta) :
    ∀ l : List SegmentMeta, (insortMeta m l).Perm (m :: l) := by
  intro l
  induction l with
  | nil => exact List.Perm.refl _
  | cons x xs ih =>
    rw [insortMeta]
    split
    · exact List.Perm.refl _
    · exact (List.Perm.cons x ih).trans (List.Perm.swap m x xs)

theorem rebuild_aux_perm :
    ∀ (recs : List ScannedRecord) (idx : SegmentIndex),
      (recs.foldl (fun acc r =>
        (acc.insert r.camera_id r.start_ts r.end_ts
          ⟨r.pool_idx, r.pool_id, r.record_offset, r.record_size⟩).2) idx).entries.Perm
        (idx.entries ++ metasOf recs idx.segment_counter) := by
  intro recs
  induction recs with
  | nil => intro idx; simp [metasOf]
  | cons r rs ih =>
    intro idx
    have h1 := ih ((idx.insert r.camera_id r.start_ts r.end_ts
      ⟨r.pool_idx, r.pool_id, r.record_offset, r.record_size⟩).2)
    simp only [SegmentIndex.insert] at h1 ⊢
    rw [List.foldl_cons]
    refine h1.trans ?_
    rw [metasOf]
    refine ((insortMeta_perm _ idx.entries).append_right _).trans ?_
    exact (List.perm_middle).symm

theorem rebuild_entries_perm (recs : List ScannedRecord) :
    (SegmentIndex.rebuild_from_scanned recs).entries.Perm (metasOf recs 0) := by
  have h := rebuild_aux_perm recs SegmentIndex.empty
  simpa [SegmentIndex.rebuild_from_scanned, SegmentIndex.empty] using h

theorem metasOf_filter_map (c : List Nat) :
    ∀ (recs : List ScannedRecord) (base : Nat),
      ((metasOf recs base).filter (fun m => m.camera_id == c)).map quadOf
        = ((recs.filter (fun r => r.camera_id == c)).map
            (fun r => (r.camera_id, r.start_ts, r.end_ts, r.record_size - 40))) := by
  intro recs
  induction recs with
  | nil => intro base; rfl
  | cons r rs ih =>
    intro base
    rw [metasOf]
    by_cases hc : (r.camera_id == c) = true
    · have h1 : List.filter (fun x : ScannedRecord => x.camera_id == c) (r :: rs)
          = r :: List.filter (fun x => x.camera_id == c) rs := by
        simp [List.filter_cons, hc]
      rw [List.filter_cons_of_pos (by simpa using hc), h1,
        List.map_cons, List.map_cons, ih]
      rfl
    · have h1 : List.filter (fun x : ScannedRecord => x.camera_id == c) (r :: rs)
          = List.filter (fun x => x.camera_id == c) rs := by
        simp [List.filter_cons, hc]
      rw [List.filter_cons_of_neg (by simpa using hc), h1, ih]

theorem expectedScan_filter_quad (c : List Nat) (pi pid : Nat) :
    ∀ (reqs : List WriteRequest) (off : Nat),
      ((expectedScan pi pid reqs off).filter (fun x => x.camera_id == c)).map
          (fun x => (x.camera_id, x.start_ts, x.end_ts, x.record_size - 40))
        = (reqs.filter (fun r => r.camera_id == c)).map quadOfReq := by
  intro reqs
  induction reqs with
  | nil => intro off; rfl
  | cons r rs ih =>
    intro off
    rw [expectedScan]
    by_cases hc : (r.camera_id == c) = true
    · have h1 : List.filter (fun x : WriteRequest => x.camera_id == c) (r :: rs)
          = r :: List.filter (fun x => x.camera_id == c) rs := by
        simp [List.filter_cons, hc]
      rw [List.filter_cons_of_pos (by simpa using hc), h1,
        List.map_cons, List.map_cons, ih]
      have hq : ((⟨r.camera_id, r.start_ts, r.end_ts, pi, pid, off,
          40 + r.data.length⟩ : ScannedRecord).camera_id,
          (⟨r.camera_id, r.start_ts, r.end_ts, pi, pid, off,
          40 + r.data.length⟩ : ScannedRecord).start_ts,
          (⟨r.camera_id, r.start_ts, r.end_ts, pi, pid, off,
          40 + r.data.length⟩ : ScannedRecord).end_ts,
          (⟨r.camera_id, r.start_ts, r.end_ts, pi, pid, off,
          40 + r.data.length⟩ : ScannedRecord).record_size - 40)
          = quadOfReq r := by
        simp only [quadOfReq]
        have : 40 + r.data.length - 40 = r.data.length := by omega
        rw [this]
      rw [hq]
    · have h1 : List.filter (fun x : WriteRequest => x.camera_id == c) (r :: rs)
          = List.filter (fun x => x.camera_id == c) rs := by
        simp [List.filter_cons, hc]
      rw [List.filter_cons_of_neg (by simpa using hc), h1, ih]

end OasisNvr

namespace OasisNvr

/-- C8 (amended): after a rotation-free run (all records fit in slot 0),
drop, re-open and `rebuild_from_scanned (scan_all_pools ())`, the rebuilt
index holds exactly the appended records with fresh segment_ids 0, 1, … in
scan order (as a permutation into BTreeMap key order), and for each camera
`c` the `segments_for_camera c` quadruples `(camera_id, start_ts, end_ts,
data_len)` are exactly those appended for `c`, modulo order — the camera id
round-trips through the 16-byte zero-padded encoding when it is at most 16
bytes and not zero-terminated.  With rotations the round trip fails: a record
of an evicted generation can resurrect (see the counterexample). -/
theorem C8_recovery_round_trip (cap n : Nat) (now now2 : Int)
    (reqs : List WriteRequest) (c : List Nat)
    (hn : 0 < n) (hok : ∀ r ∈ reqs, reqOk r) (hfit : totalSize reqs ≤ cap) :
    ((SegmentIndex.rebuild_from_scanned (scan_all_pools (openPool cap
        (filesOf (runAppends (openFresh cap n now) reqs)) now2))).entries).Perm
      (metasOf (expectedScan 0 0 reqs 64) 0) ∧
    (((SegmentIndex.rebuild_from_scanned (scan_all_pools (openPool cap
        (filesOf (runAppends (openFresh cap n now) reqs)) now2))).segments_for_camera
          c).map quadOf).Perm
      ((reqs.filter (fun r => r.camera_id == c)).map quadOfReq) := by
  have h := @scan_after_reopen cap n now now2 reqs hn hok hfit
  rw [h]
  refine ⟨rebuild_entries_perm _, ?_⟩
  have hp : ((SegmentIndex.rebuild_from_scanned (expectedScan 0 0 reqs 64)).entries.filter
      (fun m => m.camera_id == c)).Perm
      ((metasOf (expectedScan 0 0 reqs 64) 0).filter (fun m => m.camera_id == c)) :=
    (rebuild_entries_perm _).filter (fun m => m.camera_id == c)
  have hm := hp.map quadOf
  simp only [SegmentIndex.segments_for_camera]
  refine hm.trans ?_
  rw [metasOf_filter_map c (expectedScan 0 0 reqs 64) 0,
    expectedScan_filter_quad c 0 0 reqs 64]

/-- Witness for C8 (amended) at a concrete input: two fitting requests on a
fresh 2-slot pool of capacity 300, queried for camera `[97]` after drop,
re-open and rebuild. -/
theorem C8_recovery_round_trip_witness :
    ((SegmentIndex.rebuild_from_scanned (scan_all_pools (openPool 300
        (filesOf (runAppends (openFresh 300 2 0)
          [⟨[97], 1, 2, List.replicate 5 9⟩, ⟨[98], 3, 4, List.replicate 6 8⟩])) 0))).entries).Perm
      (metasOf (expectedScan 0 0
        [⟨[97], 1, 2, List.replicate 5 9⟩, ⟨[98], 3, 4, List.replicate 6 8⟩] 64) 0) ∧
    (((SegmentIndex.rebuild_from_scanned (scan_all_pools (openPool 300
        (filesOf (runAppends (openFresh 300 2 0)
          [⟨[97], 1, 2, List.replicate 5 9⟩, ⟨[98], 3, 4, List.replicate 6 8⟩])) 0))).segments_for_camera
          [97]).map quadOf).Perm
      ((([⟨[97], 1, 2, List.replicate 5 9⟩, ⟨[98], 3, 4, List.replicate 6 8⟩]
          : List WriteRequest).filter (fun r => r.camera_id == [97])).map quadOfReq) :=
  C8_recovery_round_trip 300 2 0 0
    [⟨[97], 1, 2, List.replicate 5 9⟩, ⟨[98], 3, 4, List.replicate 6 8⟩] [97]
    (by norm_num)
    (by
      intro r hr
      simp only [List.mem_cons, List.not_mem_nil, or_false] at hr
      rcases hr with h | h <;> subst h <;>
        exact ⟨⟨by decide, by decide⟩, by decide, by decide, by decide,
          by decide, by decide⟩)
    (by decide)

/-- C8 counterexample: running the writer on five requests (capacity 122,
2 slots) evicts camera `[98]`'s entry from the live index when the ring
rotates back into slot 0, yet its record bytes survive on disk behind the
new write, so `rebuild_from_scanned (scan_all_pools ())` after re-open
resurrects it: the live index has no segment for camera `[98]` while the
rebuilt index has one. -/
theorem C8_counterexample :
    ((writerRun (openFresh 122 2 0, SegmentIndex.empty) resurrectReqs).2.segments_for_camera
        [98]).length = 0 ∧
    ((SegmentIndex.rebuild_from_scanned (scan_all_pools (openPool 122
        (filesOf (writerRun (openFresh 122 2 0, SegmentIndex.empty) resurrectReqs).1)
        0))).segments_for_camera [98]).length = 1 := by
  constructor
  · decide
  · decide

end OasisNvr
